import Mathlib

/-!
# Verification of the raagbodh audio-analysis core

Shallow embedding of the numeric core of the repository:

* `AudioProcessor.computePitch`      (src/unnamed/part_001, lines 50-93)
* `AudioProcessor.pitchToNote`       (src/unnamed/part_001, lines 96-111)
* `AudioProcessor.detectRootNoteFromPitchData` (lines 145-184)
* `AudioProcessor.processAudioData`  (lines 186-247)
* `RagaEngine.analyze`               (src/services/ragaEngine.ts)

JavaScript numbers are modelled by `ℚ` (exact arithmetic); `Math.log2` is kept
as an explicit function parameter because it is transcendental.  Out-of-bounds
array reads (which yield `undefined` in JavaScript, so that any `<`/`>`
comparison against them is `false` and any arithmetic yields `NaN`, making a
subsequent `if` guard falsy) are modelled with `Option`: a comparison against a
missing element is `false` and a computation that touches a missing element is
skipped, exactly reproducing the JavaScript control flow.
-/

namespace Raagbodh

/-- The fixed 12-entry swara table `SWARA_MAPPING` (src/unnamed/part_002). -/
def SWARA_MAPPING : List String :=
  ["Sa", "re", "Re", "ga", "Ga", "ma", "Ma", "Pa", "dha", "Dha", "ni", "Ni"]

/-- The fixed 12-entry base-note table `BASE_NOTES` (src/unnamed/part_002),
C-rooted, with exact rational frequencies. -/
def BASE_NOTES : List (String × ℚ) :=
  [("C", 261.63), ("C#", 277.18), ("D", 293.66), ("D#", 311.13),
   ("E", 329.63), ("F", 349.23), ("F#", 369.99), ("G", 392.00),
   ("G#", 415.30), ("A", 440.00), ("A#", 466.16), ("B", 493.88)]

namespace AudioProcessor

/-! ## computePitch (src/unnamed/part_001, lines 50-93)

```js
static computePitch(buffer, sampleRate) {
  let rms = 0;
  for (let i = 0; i < buffer.length; i++) rms += buffer[i] * buffer[i];
  rms = Math.sqrt(rms / buffer.length);
  if (rms < 0.01) return -1;
  let r1 = 0, r2 = buffer.length - 1, thres = 0.2;
  for (let i = 0; i < buffer.length / 2; i++)
    if (Math.abs(buffer[i]) < thres) { r1 = i; break; }
  for (let i = 1; i < buffer.length / 2; i++)
    if (Math.abs(buffer[buffer.length - i]) < thres) { r2 = buffer.length - i; break; }
  const buf2 = buffer.slice(r1, r2);
  const c = new Array(buf2.length).fill(0);
  for (let i = 0; i < buf2.length; i++)
    for (let j = 0; j < buf2.length - i; j++) c[i] = c[i] + buf2[j] * buf2[j + i];
  let d = 0;
  while (c[d] > c[d + 1]) d++;
  let maxval = -1, maxpos = -1;
  for (let i = d; i < buf2.length; i++)
    if (c[i] > maxval) { maxval = c[i]; maxpos = i; }
  let T0 = maxpos;
  const x1 = c[T0 - 1], x2 = c[T0], x3 = c[T0 + 1];
  const a = (x1 + x3 - 2 * x2) / 2;
  const b = (x3 - x1) / 2;
  if (a) T0 = T0 - b / (2 * a);
  return sampleRate / T0;
}
```
-/

/-- Sum of squared samples (the accumulator `rms` before the square root). -/
def sumSq (buffer : List ℚ) : ℚ := (buffer.map (fun x => x * x)).sum

/-- The silence test `Math.sqrt(rms / N) < 0.01`.  Since both sides are
non-negative and `Math.sqrt` is monotone, the JS comparison is equivalent to
`rms / N < 0.0001`, which is how we state it over `ℚ` (no square root needed).
For an empty buffer JS computes `sqrt(0/0) = NaN`, `NaN < 0.01` is false so JS
falls through, while over `ℚ` we have `0/0 = 0 < 1/10000`; no theorem below
evaluates `computePitch` on an empty buffer, and every universally quantified
statement about a non-silent frame implies the frame is non-empty. -/
def isSilent (buffer : List ℚ) : Prop :=
  sumSq buffer / (buffer.length : ℚ) < 1/10000

instance (buffer : List ℚ) : Decidable (isSilent buffer) := by
  unfold isSilent; infer_instance

/-- Loop bound of both trim scans: the set of integer `i` with
`i < buffer.length / 2` (real division in JS) is `{i | i < ⌈N/2⌉}`. -/
def halfLen (n : ℕ) : ℕ := (n + 1) / 2

/-- `r1`: the `break` in the first scan stops at the FIRST index `i` in the
first half whose absolute sample value is BELOW the threshold `0.2`
(`Math.abs(buffer[i]) < thres`); default `0` when no such index exists. -/
def r1 (buffer : List ℚ) : ℕ :=
  (((List.range (halfLen buffer.length)).find?
      (fun i => |buffer.getD i 0| < 1/5)).getD 0)

/-- `r2`: the second scan runs `i = 1, 2, ...` with `i < N/2` and stops at the
first `i` with `Math.abs(buffer[N - i]) < thres`, setting `r2 = N - i`
(so: first index, counting back from the tail, whose absolute value is below
`0.2`); default `N - 1` when no such index exists. -/
def r2 (buffer : List ℚ) : ℕ :=
  match (List.range' 1 (halfLen buffer.length - 1)).find?
      (fun i => |buffer.getD (buffer.length - i) 0| < 1/5) with
  | some i => buffer.length - i
  | none => buffer.length - 1

/-- `buf2 = buffer.slice(r1, r2)`: elements at indices `[r1, r2)`. -/
def buf2 (buffer : List ℚ) : List ℚ :=
  (buffer.drop (r1 buffer)).take (r2 buffer - r1 buffer)

/-- The autocorrelation array `c`:
`c[i] = Σ_{j < len - i} buf2[j] * buf2[j+i]`. -/
def autocorr (b : List ℚ) : List ℚ :=
  (List.range b.length).map (fun i =>
    ((List.range (b.length - i)).map (fun j => b.getD j 0 * b.getD (j + i) 0)).sum)

/-- One test of the `while (c[d] > c[d+1])` condition.  In JS an out-of-bounds
read yields `undefined` and any `>` comparison involving `undefined` is
`false`, which is exactly the `Option` match below. -/
def whileCond (c : List ℚ) (i : ℕ) : Bool :=
  match c.get? i, c.get? (i + 1) with
  | some x, some y => decide (y < x)
  | _, _ => false

/-- Final value of `d`: the first index at which the `while` condition fails.
The condition always fails at `i = c.length` at the latest (both reads are
then out of bounds), so the search over `List.range (c.length + 1)` always
succeeds; the `getD` fallback is never used. -/
def scanD (c : List ℚ) : ℕ :=
  (((List.range (c.length + 1)).find? (fun i => !whileCond c i)).getD c.length)

/-- Whether the `while` scan's final (failing) test read past the end of `c`:
the loop stops either because `c[d] ≤ c[d+1]` (both in bounds) or because the
read of `c[d+1]` (or `c[d]` itself) was out of bounds. -/
def scanOOB (c : List ℚ) : Prop := c.length ≤ scanD c + 1

instance (c : List ℚ) : Decidable (scanOOB c) := by
  unfold scanOOB; infer_instance

/-- The max scan: `maxval = -1, maxpos = -1;
for (i = d; i < len; i++) if (c[i] > maxval) { maxval = c[i]; maxpos = i; }`
returning the final `(maxval, maxpos)`; `maxpos` is `-1` (a JS number, hence
`ℤ` here) when no entry on `[d, len)` exceeds `-1`. -/
def maxScan (c : List ℚ) (d : ℕ) : ℚ × ℤ :=
  (List.range' d (c.length - d)).foldl
    (fun mv i => if c.getD i 0 > mv.1 then (c.getD i 0, (i : ℤ)) else mv)
    (-1, -1)

/-- JS array read at a (possibly negative) integer index. -/
def jsGet (c : List ℚ) (i : ℤ) : Option ℚ :=
  if 0 ≤ i then c.get? i.toNat else none

/-- Parabolic interpolation step: `x1 = c[T0-1], x2 = c[T0], x3 = c[T0+1];
a = (x1+x3-2x2)/2; b = (x3-x1)/2; if (a) T0 = T0 - b/(2a)`.
If any read is out of bounds, `a` is `NaN` in JS, `if (NaN)` is falsy and the
adjustment is skipped; likewise `if (0)` is falsy. -/
def interp (c : List ℚ) (T0 : ℤ) : ℚ :=
  match jsGet c (T0 - 1), jsGet c T0, jsGet c (T0 + 1) with
  | some x1, some x2, some x3 =>
    let a := (x1 + x3 - 2 * x2) / 2
    let b := (x3 - x1) / 2
    if a ≠ 0 then (T0 : ℚ) - b / (2 * a) else (T0 : ℚ)
  | _, _, _ => (T0 : ℚ)

/-- `AudioProcessor.computePitch` (without the claimed short-buffer guard,
which the source does not contain).  `sampleRate / T0` uses `ℚ` division;
no theorem below depends on a `T0 = 0` input (JS would give `Infinity`). -/
def computePitch (buffer : List ℚ) (sampleRate : ℚ) : ℚ :=
  if isSilent buffer then -1
  else
    let b2 := buf2 buffer
    let c := autocorr b2
    let d := scanD c
    let T0 := (maxScan c d).2
    sampleRate / interp c T0

/-- Did `computePitch` on this (non-silent) frame read past the end of the
autocorrelation array during the local-minimum `while` scan? -/
def computePitchScanOOB (buffer : List ℚ) : Prop :=
  ¬ isSilent buffer ∧ scanOOB (autocorr (buf2 buffer))

instance (buffer : List ℚ) : Decidable (computePitchScanOOB buffer) := by
  unfold computePitchScanOOB; infer_instance

/-- The trim bound claimed by the specification (refinement model, written
from the spec's words, NOT from the source): "scan the first half of the
frame for the first index whose absolute sample value EXCEEDS 0.2; call it
r1 (default: 0 if none found)". -/
def specClaimedR1 (buffer : List ℚ) : ℕ :=
  (((List.range (halfLen buffer.length)).find?
      (fun i => 1/5 < |buffer.getD i 0|)).getD 0)

/-! ## pitchToNote (src/unnamed/part_001, lines 96-111)

```js
static pitchToNote(pitch, baseFreq) {
  if (pitch === -1) return "-";
  const semitonesFromBase = 12 * Math.log2(pitch / baseFreq);
  const roundedSemitones = Math.round(semitonesFromBase);
  const normalizedIndex = ((roundedSemitones % 12) + 12) % 12;
  return SWARA_MAPPING[normalizedIndex];
}
```

`Math.log2` is transcendental, so the embedding is parametric in the `log2`
function the runtime evaluates.  `Math.round` rounds half toward `+∞`, which
is exactly Mathlib's `round` on `ℚ`.  JS `%` is the truncated remainder
(sign of the dividend) while Lean's `Int.emod` is non-negative for a positive
modulus; the two conventions agree on the COMPOSITE expression
`((r % 12) + 12) % 12`: the JS inner remainder lies in `(-12, 12)`, adding 12
makes it positive, and a truncated remainder of a positive number equals
`emod`, so both compute the unique representative of `r mod 12` in `[0, 12)`.
-/

/-- `AudioProcessor.pitchToNote`, parametric in the runtime's `log2`. -/
def pitchToNote (log2 : ℚ → ℚ) (pitch : ℚ) (baseFreq : ℚ) : String :=
  if pitch = -1 then "-"
  else
    let semitonesFromBase := 12 * log2 (pitch / baseFreq)
    let roundedSemitones : ℤ := round semitonesFromBase
    let normalizedIndex := ((roundedSemitones % 12) + 12) % 12
    SWARA_MAPPING.getD normalizedIndex.toNat ""

/-! ## detectRootNoteFromPitchData (src/unnamed/part_001, lines 145-184)

```js
static detectRootNoteFromPitchData(pitchData) {
  const bins = new Array(12).fill(0);
  let validSamples = 0;
  pitchData.forEach(p => {
    if (p.frequency > 50 && p.frequency < 1000) {
      const semitonesFromC = 12 * Math.log2(p.frequency / 261.63);
      const chroma = ((Math.round(semitonesFromC) % 12) + 12) % 12;
      bins[chroma]++;
      validSamples++;
    }
  });
  if (validSamples === 0) return BASE_NOTES[0];
  let maxBin = 0;
  let maxVal = 0;
  for (let i = 0; i < 12; i++)
    if (bins[i] > maxVal) { maxVal = bins[i]; maxBin = i; }
  return BASE_NOTES[maxBin];
}
```

The input elements are the `frequency` fields of the observation records. -/

/-- Chroma index of a frequency relative to middle C (261.63 Hz), as in the
source: `((Math.round(12 * Math.log2(freq / 261.63)) % 12) + 12) % 12`. -/
def chroma (log2 : ℚ → ℚ) (freq : ℚ) : ℤ :=
  ((round (12 * log2 (freq / 261.63)) % 12) + 12) % 12

/-- One step of the `forEach` histogram pass over `(bins, validSamples)`. -/
def binStep (log2 : ℚ → ℚ) (st : List ℕ × ℕ) (p : ℚ) : List ℕ × ℕ :=
  if 50 < p ∧ p < 1000 then
    (st.1.set (chroma log2 p).toNat (st.1.getD (chroma log2 p).toNat 0 + 1),
     st.2 + 1)
  else st

/-- The `forEach` histogram pass: final `(bins, validSamples)`. -/
def binState (log2 : ℚ → ℚ) (pitchData : List ℚ) : List ℕ × ℕ :=
  pitchData.foldl (binStep log2) (List.replicate 12 0, 0)

/-- One step of the max-bin scan over `(maxBin, maxVal)`. -/
def maxBinStep (bins : List ℕ) (mb : ℕ × ℕ) (i : ℕ) : ℕ × ℕ :=
  if bins.getD i 0 > mb.2 then (i, bins.getD i 0) else mb

/-- The max-bin scan: `maxBin = 0; maxVal = 0;
for (i = 0; i < 12; i++) if (bins[i] > maxVal) {...}`;
returns the final `(maxBin, maxVal)`. -/
def maxBinScan (bins : List ℕ) : ℕ × ℕ :=
  (List.range 12).foldl (maxBinStep bins) (0, 0)

/-- `AudioProcessor.detectRootNoteFromPitchData`, parametric in `log2`. -/
def detectRootNoteFromPitchData (log2 : ℚ → ℚ) (pitchData : List ℚ) :
    String × ℚ :=
  let st := binState log2 pitchData
  if st.2 = 0 then BASE_NOTES.getD 0 ("", 0)
  else BASE_NOTES.getD (maxBinScan st.1).1 ("", 0)

end AudioProcessor

/-! ## processAudioData (src/unnamed/part_001, lines 186-247) -/

/-- One entry of the dense pitch trace `{ time, frequency, note }`. -/
structure PitchSample where
  time : ℚ
  frequency : ℚ
  note : String
deriving DecidableEq

/-- `DetectedNote` (src/unnamed/part_002). -/
structure DetectedNote where
  note : String
  timestamp : ℚ
  duration : ℚ
deriving DecidableEq

/-- `NoteStat` (src/unnamed/part_002). -/
structure NoteStat where
  note : String
  duration : ℚ
  normalizedDuration : ℚ
deriving DecidableEq

namespace AudioProcessor

/-- The condensation loop of `processAudioData` (lines 197-222), in state
(`currentNote`, `startTime`, time of the most recently consumed sample); the
trailing `if (currentNote !== "-")` push — with its `Math.max(50, lastTime -
startTime)` duration floor — happens when the input is exhausted, where
`prevTime` then equals `pitchData[pitchData.length - 1].time`. -/
def condenseAux (cur : String) (start : ℚ) (prevTime : ℚ) :
    List PitchSample → List DetectedNote
  | [] =>
    if cur ≠ "-" then [⟨cur, start, max 50 (prevTime - start)⟩] else []
  | p :: rest =>
    if p.note = cur then condenseAux cur start p.time rest
    else
      (if cur ≠ "-" then [⟨cur, start, p.time - start⟩] else []) ++
        condenseAux p.note p.time p.time rest

/-- Step 1 of `processAudioData`: run-length-encode the pitch trace into the
`condensed` list of `DetectedNote`s (silence runs are dropped). -/
def condense : List PitchSample → List DetectedNote
  | [] => []
  | p :: rest => condenseAux p.note p.time p.time rest

/-- Time of the last sample of `l`, or `d` if `l` is empty (used to state
what `pitchData[pitchData.length - 1].time` is while the condensation loop
runs on the tail of the input). -/
def lastTimeD (l : List PitchSample) (d : ℚ) : ℚ :=
  ((l.getLast?).map PitchSample.time).getD d

/-- Step 2 of `processAudioData` (lines 225-235): the `forEach` that fills
`statsMap` and `totalDuration`, skipping notes with `duration ≤ 40`.
`statsMap` is modelled as a total function that is zero away from the keys
that were written.  The source initializes the map with the 12 swara keys and
then enumerates `Object.keys(statsMap)`; every theorem about the statistics
carries the hypothesis that the incoming labels are swaras (or `"-"`), under
which the key set stays exactly `SWARA_MAPPING` and this model agrees with
the source (a label outside the table would make JS produce `NaN` via
`undefined + number`, which `ℚ` cannot represent). -/
def statsStep (st : (String → ℚ) × ℚ) (n : DetectedNote) : (String → ℚ) × ℚ :=
  if n.duration > 40 then
    (Function.update st.1 n.note (st.1 n.note + n.duration), st.2 + n.duration)
  else st

/-- The full statistics pass (see `statsStep`). -/
def statsMapFold (condensed : List DetectedNote) : (String → ℚ) × ℚ :=
  condensed.foldl statsStep (fun _ => 0, 0)

/-- `AudioProcessor.processAudioData`: returns
`(noteStream, noteStats)`.  The `noteStats` list enumerates
`Object.keys(statsMap)` in insertion order, i.e. `SWARA_MAPPING` order. -/
def processAudioData (pd : List PitchSample) :
    List DetectedNote × List NoteStat :=
  match pd with
  | [] => ([], [])
  | p :: rest =>
    let condensed := condenseAux p.note p.time p.time rest
    let st := statsMapFold condensed
    let noteStats := SWARA_MAPPING.map (fun note =>
      { note := note, duration := st.1 note,
        normalizedDuration := if st.2 > 0 then st.1 note / st.2 else 0 : NoteStat })
    (condensed.filter (fun n => n.duration > 40), noteStats)

end AudioProcessor

/-! ## RagaEngine.analyze (src/services/ragaEngine.ts) -/

/-- `raga.pakad` is `string[] | string[][]` in the source. -/
inductive PakadField where
  | flat : List String → PakadField
  | nested : List (List String) → PakadField
deriving DecidableEq

/-- `Raga` (src/unnamed/part_002). -/
structure Raga where
  num : ℤ
  id : String
  name : String
  thaat : String
  aaroh : List String
  avaroh : List String
  pakad : PakadField
  phrases : Option (List (List String))
  vaadi : String
  samvaadi : String
  identifyingFeature : Option String
deriving DecidableEq

/-- `RagaScore.matchDetails` (src/unnamed/part_002). -/
structure MatchDetails where
  vaadiMatch : Bool
  samvaadiMatch : Bool
  phraseMatches : ℕ
  noteOverlapScore : ℚ
deriving DecidableEq

/-- `RagaScore` (src/unnamed/part_002). -/
structure RagaScore where
  raga : Raga
  score : ℚ
  matchDetails : MatchDetails
deriving DecidableEq

namespace RagaEngine

/-- The word separator used by `join(" ")`. -/
def sep : Char := ' '

/-- `tokens.join(" ")` at the character level: intersperse a single separator
character between the token character lists.  (A Lean `String` is its list of
characters; JS string concatenation is list append.) -/
def sepJoin : List (List Char) → List Char
  | [] => []
  | [t] => t
  | t :: ts => t ++ sep :: sepJoin ts

/-- `hay.includes(needle)`: JS `String.prototype.includes` returns `true`
exactly when the needle occurs as a contiguous substring of the haystack,
i.e. when the needle's character list is an infix of the haystack's. -/
def stringIncludes (hay needle : List Char) : Bool :=
  decide (needle <:+: hay)

/-- `[...noteStats].sort((a, b) => b.duration - a.duration)`: JS `sort` is
stable, so it produces the unique stable descending-by-duration ordering,
which is `mergeSort` with `le a b := b.duration ≤ a.duration`. -/
def sortedNotes (noteStats : List NoteStat) : List NoteStat :=
  noteStats.mergeSort (fun a b => decide (b.duration ≤ a.duration))

/-- `Array.isArray(raga.pakad[0]) ? raga.pakad : [raga.pakad]`.
`pakad[0]` is an array only for a `nested` value with at least one
alternative; an empty array (either field type) has `pakad[0] === undefined`
and is wrapped, yielding the single empty pattern. -/
def pakadAlternatives : PakadField → List (List String)
  | .nested (p :: ps) => p :: ps
  | .nested [] => [[]]
  | .flat p => [p]

/-- `[...pakads, ...(raga.phrases || [])]`. -/
def allPatterns (raga : Raga) : List (List String) :=
  pakadAlternatives raga.pakad ++ raga.phrases.getD []

/-- Section B of the per-raga loop: the `forEach` over `sortedNotes`
accumulating `(presentNotesScore, forbiddenPenalty)`.  `ragaNotes.has` on the
`Set` built from `[...raga.aaroh, ...raga.avaroh]` is membership in the
appended list. -/
def overlapStep (ragaNotes : List String) (pp : ℚ × ℚ) (n : NoteStat) : ℚ × ℚ :=
  if n.normalizedDuration > 1/20 then
    if ragaNotes.contains n.note then (pp.1 + 2, pp.2) else (pp.1, pp.2 + 5)
  else pp

/-- The full overlap pass (see `overlapStep`). -/
def overlapFold (ragaNotes : List String) (sorted : List NoteStat) : ℚ × ℚ :=
  sorted.foldl (overlapStep ragaNotes) (0, 0)

/-- Section D of the per-raga loop: for each candidate pattern, +20 score and
+1 `phraseMatches` when `streamString.includes(pattern.join(" "))`;
returns the accumulated `(score delta, phraseMatches)`. -/
def phraseStep (streamStr : List Char) (acc : ℚ × ℕ) (pat : List String) :
    ℚ × ℕ :=
  if stringIncludes streamStr (sepJoin (pat.map String.data)) then
    (acc.1 + 20, acc.2 + 1)
  else acc

/-- The full phrase pass (see `phraseStep`). -/
def phraseFold (streamStr : List Char) (patterns : List (List String)) :
    ℚ × ℕ :=
  patterns.foldl (phraseStep streamStr) (0, 0)

/-- The body of the `for (const raga of RAGA_DATA)` loop: one `RagaScore`. -/
def scoreRaga (noteStats : List NoteStat) (noteStream : List DetectedNote)
    (raga : Raga) : RagaScore :=
  let sorted := sortedNotes noteStats
  let dominantNotes := (sorted.take 3).map (fun n => n.note)
  let streamStr := sepJoin ((noteStream.map (fun n => n.note)).map String.data)
  let vaadiMatch := dominantNotes.contains raga.vaadi
  let samvaadiMatch := dominantNotes.contains raga.samvaadi
  let ragaNotes := raga.aaroh ++ raga.avaroh
  let ov := overlapFold ragaNotes sorted
  let noteOverlapScore := ov.1 - ov.2
  let ph := phraseFold streamStr (allPatterns raga)
  { raga := raga
    score := (if vaadiMatch then 10 else 0) + (if samvaadiMatch then 10 else 0) +
      noteOverlapScore + ph.1
    matchDetails :=
      { vaadiMatch := vaadiMatch
        samvaadiMatch := samvaadiMatch
        phraseMatches := ph.2
        noteOverlapScore := noteOverlapScore } }

/-- `RagaEngine.analyze`, parametric in the raga corpus `RAGA_DATA`
(src/constants, an external read-only data table): build one `RagaScore` per
corpus raga, then `scores.sort((a, b) => b.score - a.score)` — a stable
descending sort by score. -/
def analyze (ragaData : List Raga) (noteStats : List NoteStat)
    (noteStream : List DetectedNote) : List RagaScore :=
  (ragaData.map (scoreRaga noteStats noteStream)).mergeSort
    (fun a b => decide (b.score ≤ a.score))

/-- Concrete note stream whose label sequence is `[Sa, Re, Ga, Ma]` (used by
the phrase-matching witnesses, mirroring the spec's §8 test vector). -/
def testStream : List DetectedNote :=
  [⟨"Sa", 0, 100⟩, ⟨"Re", 100, 100⟩, ⟨"Ga", 200, 100⟩, ⟨"Ma", 300, 100⟩]

/-- Minimal raga record around a single flat pakad (test fixture). -/
def testRaga (pak : List String) : Raga :=
  { num := 1, id := "test", name := "Test", thaat := "Test",
    aaroh := [], avaroh := [], pakad := .flat pak, phrases := none,
    vaadi := "Sa", samvaadi := "Pa", identifyingFeature := none }

end RagaEngine

/-! ## Generic helper lemmas -/

/-- `find?` over `range' s n` finds exactly the least index in `[s, s+n)`
satisfying `p`. -/
theorem find?_range'_eq_some_iff {s n : ℕ} {p : ℕ → Bool} {i : ℕ} :
    (List.range' s n).find? p = some i ↔
      s ≤ i ∧ i < s + n ∧ p i ∧ ∀ j, s ≤ j → j < i → ¬ p j := by
  induction n generalizing s with
  | zero => simp; omega
  | succ n ih =>
    rw [List.range'_succ]
    by_cases hs : p s
    · rw [List.find?_cons_of_pos _ hs]
      constructor
      · rintro h
        obtain rfl : s = i := by simpa using h
        exact ⟨le_refl _, by omega, hs, fun j h1 h2 => by omega⟩
      · rintro ⟨h1, _, _, h4⟩
        rcases eq_or_lt_of_le h1 with rfl | hlt
        · rfl
        · exact absurd hs (h4 s (le_refl _) hlt)
    · rw [List.find?_cons_of_neg _ hs, ih]
      constructor
      · rintro ⟨h1, h2, h3, h4⟩
        refine ⟨by omega, by omega, h3, fun j hj1 hj2 => ?_⟩
        rcases eq_or_lt_of_le hj1 with rfl | hlt
        · exact hs
        · exact h4 j hlt hj2
      · rintro ⟨h1, h2, h3, h4⟩
        have hsi : s ≠ i := by rintro rfl; exact hs h3
        exact ⟨by omega, by omega, h3, fun j hj1 hj2 => h4 j (by omega) hj2⟩

/-- `find?` over `range n` finds exactly the least index `< n` satisfying
`p`. -/
theorem find?_range_eq_some_iff {n : ℕ} {p : ℕ → Bool} {i : ℕ} :
    (List.range n).find? p = some i ↔
      i < n ∧ p i ∧ ∀ j, j < i → ¬ p j := by
  rw [List.range_eq_range', find?_range'_eq_some_iff]
  constructor
  · rintro ⟨_, h2, h3, h4⟩
    exact ⟨by omega, h3, fun j hj => h4 j (by omega) hj⟩
  · rintro ⟨h1, h2, h3⟩
    exact ⟨by omega, by omega, h2, fun j _ hj => h3 j hj⟩

/-- Dropping `a` then taking `b` elements (with `a + b` within bounds)
produces exactly the elements at indices `a, a+1, ..., a+b-1`. -/
theorem drop_take_eq_map_range {l : List ℚ} {a b : ℕ} (h : a + b ≤ l.length) :
    (l.drop a).take b = (List.range b).map (fun k => l.getD (a + k) 0) := by
  apply List.ext_getElem?
  intro k
  rcases lt_or_le k b with hk | hk
  · rw [List.getElem?_take_of_lt hk, List.getElem?_drop,
      List.getElem?_map, List.getElem?_range hk]
    have hak : a + k < l.length := by omega
    simp [List.getElem?_eq_getElem hak, List.getD_eq_getElem?_getD,
      List.getElem?_eq_getElem hak]
  · have h1 : (List.take b (List.drop a l)).length ≤ k := by
      simp only [List.length_take, List.length_drop]; omega
    have h2 : ((List.range b).map (fun k => l.getD (a + k) 0)).length ≤ k := by
      simp only [List.length_map, List.length_range]; omega
    rw [List.getElem?_eq_none h1, List.getElem?_eq_none h2]

/-- Summing `f x / c` over a list equals the sum of `f` divided by `c`. -/
theorem sum_map_div (l : List String) (f : String → ℚ) (c : ℚ) :
    (l.map (fun s => f s / c)).sum = (l.map f).sum / c := by
  induction l with
  | nil => simp
  | cons a l ih => simp [ih, add_div]

/-- Updating a function at a key occurring exactly once in a duplicate-free
list shifts the mapped sum by the difference at that key. -/
theorem sum_map_update (l : List String) (hnd : l.Nodup) (f : String → ℚ)
    (a : String) (ha : a ∈ l) (v : ℚ) :
    (l.map (Function.update f a v)).sum = (l.map f).sum - f a + v := by
  induction l with
  | nil => simp at ha
  | cons b l ih =>
    rw [List.map_cons, List.map_cons, List.sum_cons, List.sum_cons]
    rcases List.mem_cons.mp ha with heq | hmem
    · subst heq
      have hb : a ∉ l := (List.nodup_cons.mp hnd).1
      have hmap : l.map (Function.update f a v) = l.map f := by
        apply List.map_congr_left
        intro x hx
        exact Function.update_noteq (by rintro rfl; exact hb hx) _ _
      rw [hmap, Function.update_same]
      ring
    · have hab : a ≠ b := by
        rintro rfl; exact (List.nodup_cons.mp hnd).1 hmem
      rw [ih (List.nodup_cons.mp hnd).2 hmem,
        Function.update_noteq (Ne.symm hab)]
      ring

namespace AudioProcessor

/-- C1: the claim states that every non-silent frame whose trimmed buffer has
fewer than 3 samples makes `computePitch` return the silence sentinel `-1`
without reading past the end of the autocorrelation array.  The source
contains no such guard: on the frame `[0.5, 0.1, 0.5, 0.5]` at sample rate
44100 the frame is non-silent, the trimmed buffer `[0.1, 0.5]` has 2 < 3
samples, the local-minimum `while` scan reads `c[2]` past the end of the
2-entry autocorrelation array, and the function returns `44100`, not `-1`. -/
theorem computePitch_short_buffer_unguarded :
    ¬ isSilent [1/2, 1/10, 1/2, 1/2] ∧
    (buf2 [1/2, 1/10, 1/2, 1/2]).length < 3 ∧
    computePitchScanOOB [1/2, 1/10, 1/2, 1/2] ∧
    computePitch [1/2, 1/10, 1/2, 1/2] 44100 = 44100 ∧
    computePitch [1/2, 1/10, 1/2, 1/2] 44100 ≠ -1 := by
  have hns : ¬ isSilent [1/2, 1/10, 1/2, 1/2] := by
    unfold isSilent sumSq; norm_num
  have hr1 : r1 [1/2, 1/10, 1/2, 1/2] = 1 := by
    unfold r1 halfLen; norm_num [List.range_succ, List.find?, abs_lt]
  have hr2 : r2 [1/2, 1/10, 1/2, 1/2] = 3 := by
    unfold r2 halfLen; norm_num [List.range', List.find?, abs_lt]
  have hbuf2 : buf2 [1/2, 1/10, 1/2, 1/2] = [1/10, 1/2] := by
    unfold buf2; rw [hr1, hr2]; rfl
  have hc : autocorr [1/10, 1/2] = [13/50, 1/20] := by
    unfold autocorr; norm_num [List.range_succ]
  have hd : scanD [13/50, 1/20] = 1 := by
    unfold scanD whileCond; norm_num [List.range_succ, List.find?]
  have hinterp : interp [(13:ℚ)/50, 1/20] 1 = 1 := by
    show ((1:ℤ):ℚ) = 1
    norm_num
  have hoob : scanOOB [(13:ℚ)/50, 1/20] := by
    unfold scanOOB; rw [hd]; norm_num
  have hmax : maxScan [(13:ℚ)/50, 1/20] 1 = (1/20, 1) := by
    unfold maxScan; norm_num [List.range']
  have hpitch : computePitch [1/2, 1/10, 1/2, 1/2] 44100 = 44100 := by
    unfold computePitch
    rw [if_neg hns, hbuf2]
    simp only [hc, hd, hmax]
    norm_num [hinterp]
  refine ⟨hns, ?_, ⟨hns, ?_⟩, hpitch, ?_⟩
  · rw [hbuf2]; norm_num
  · rw [hbuf2, hc]; exact hoob
  · rw [hpitch]; norm_num

/-- C2 counterexample: on the non-silent frame `[0.5, 0.1, 0.5, 0.5]` the
source computes `r1 = 1` (the first index whose absolute value is BELOW the
0.2 threshold), whereas the claim's rule "first index whose absolute sample
value exceeds 0.2, default 0" gives index 0; the two trim bounds differ. -/
theorem trim_r1_ne_specClaimedR1 :
    ¬ isSilent [1/2, 1/10, 1/2, 1/2] ∧
    r1 [1/2, 1/10, 1/2, 1/2] = 1 ∧
    specClaimedR1 [1/2, 1/10, 1/2, 1/2] = 0 ∧
    r1 [1/2, 1/10, 1/2, 1/2] ≠ specClaimedR1 [1/2, 1/10, 1/2, 1/2] := by
  have hns : ¬ isSilent [1/2, 1/10, 1/2, 1/2] := by
    unfold isSilent sumSq; norm_num
  have h1 : r1 [1/2, 1/10, 1/2, 1/2] = 1 := by
    unfold r1 halfLen; norm_num [List.range_succ, List.find?, abs_lt]
  have h2 : specClaimedR1 [1/2, 1/10, 1/2, 1/2] = 0 := by
    unfold specClaimedR1 halfLen; norm_num [List.range_succ, List.find?, lt_abs]
  exact ⟨hns, h1, h2, by rw [h1, h2]; norm_num⟩

/-- C2 amended: for every non-silent frame of `N` samples, `r1` is the FIRST
index `i` with `i < N/2` whose absolute sample value is BELOW `0.2` (default
`0` if none is found), `r2` is the first index of the form `N - i`
(`1 ≤ i < N/2`, i.e. scanning the last half backward from the tail) whose
absolute value is BELOW `0.2` (default `N - 1` if none is found), and the
buffer passed to the autocorrelation analysis consists exactly of the samples
at indices `[r1, r2)`. -/
theorem trim_bounds_spec (buffer : List ℚ) (hns : ¬ isSilent buffer) :
    ((∃ i, i < halfLen buffer.length ∧ |buffer.getD i 0| < 1/5) →
        r1 buffer < halfLen buffer.length ∧
        |buffer.getD (r1 buffer) 0| < 1/5 ∧
        ∀ j, j < r1 buffer → 1/5 ≤ |buffer.getD j 0|) ∧
    ((∀ i, i < halfLen buffer.length → 1/5 ≤ |buffer.getD i 0|) →
        r1 buffer = 0) ∧
    ((∃ i, 1 ≤ i ∧ i < halfLen buffer.length ∧
          |buffer.getD (buffer.length - i) 0| < 1/5) →
        ∃ i, 1 ≤ i ∧ i < halfLen buffer.length ∧
          r2 buffer = buffer.length - i ∧
          |buffer.getD (buffer.length - i) 0| < 1/5 ∧
          ∀ j, 1 ≤ j → j < i → 1/5 ≤ |buffer.getD (buffer.length - j) 0|) ∧
    ((∀ i, 1 ≤ i → i < halfLen buffer.length →
          1/5 ≤ |buffer.getD (buffer.length - i) 0|) →
        r2 buffer = buffer.length - 1) ∧
    buf2 buffer =
      (List.range (r2 buffer - r1 buffer)).map
        (fun k => buffer.getD (r1 buffer + k) 0) := by
  have hr1lt : ∀ i, i < halfLen buffer.length → i < buffer.length := by
    intro i hi; unfold halfLen at hi; omega
  refine ⟨?_, ?_, ?_, ?_, ?_⟩
  · rintro ⟨i, hi, habs⟩
    unfold r1
    rcases hfind : (List.range (halfLen buffer.length)).find?
        (fun i => decide (|buffer.getD i 0| < 1/5)) with _ | j
    · rw [List.find?_eq_none] at hfind
      exact absurd (by simpa using habs)
        (by simpa using hfind i (List.mem_range.mpr hi))
    · rw [find?_range_eq_some_iff] at hfind
      obtain ⟨hj1, hj2, hj3⟩ := hfind
      refine ⟨hj1, by simpa using hj2, fun k hk => ?_⟩
      have := hj3 k (by simpa using hk)
      simpa using this
  · intro hall
    unfold r1
    rcases hfind : (List.range (halfLen buffer.length)).find?
        (fun i => decide (|buffer.getD i 0| < 1/5)) with _ | j
    · rfl
    · rw [find?_range_eq_some_iff] at hfind
      obtain ⟨hj1, hj2, _⟩ := hfind
      exact absurd (by simpa using hj2) (not_lt.mpr (hall j hj1))
  · rintro ⟨i, hi1, hi2, habs⟩
    unfold r2
    rcases hfind : (List.range' 1 (halfLen buffer.length - 1)).find?
        (fun i => decide (|buffer.getD (buffer.length - i) 0| < 1/5)) with _ | j
    · rw [List.find?_eq_none] at hfind
      have hmem : i ∈ List.range' 1 (halfLen buffer.length - 1) := by
        rw [List.mem_range']
        exact ⟨i - 1, by omega, by omega⟩
      exact absurd (by simpa using habs) (by simpa using hfind i hmem)
    · rw [find?_range'_eq_some_iff] at hfind
      obtain ⟨hj1, hj2, hj3, hj4⟩ := hfind
      refine ⟨j, hj1, by omega, rfl, by simpa using hj3, fun k hk1 hk2 => ?_⟩
      have := hj4 k hk1 hk2
      simpa using this
  · intro hall
    unfold r2
    rcases hfind : (List.range' 1 (halfLen buffer.length - 1)).find?
        (fun i => decide (|buffer.getD (buffer.length - i) 0| < 1/5)) with _ | j
    · rfl
    · rw [find?_range'_eq_some_iff] at hfind
      obtain ⟨hj1, hj2, hj3, _⟩ := hfind
      exact absurd (by simpa using hj3)
        (not_lt.mpr (hall j hj1 (by omega)))
  · unfold buf2
    apply drop_take_eq_map_range
    -- `r1 + (r2 - r1) ≤ N`: both trim bounds stay within the buffer.
    have hN : buffer.length ≠ 0 := by
      intro h0
      apply hns
      unfold isSilent sumSq
      rw [List.eq_nil_of_length_eq_zero h0]
      norm_num
    have h1 : r1 buffer < buffer.length ∨ r1 buffer = 0 := by
      unfold r1
      rcases hfind : (List.range (halfLen buffer.length)).find?
          (fun i => decide (|buffer.getD i 0| < 1/5)) with _ | j
      · right; rfl
      · rw [find?_range_eq_some_iff] at hfind
        simp only [Option.getD_some]
        exact Or.inl (hr1lt j hfind.1)
    have h2 : r2 buffer ≤ buffer.length - 1 := by
      unfold r2
      rcases hfind : (List.range' 1 (halfLen buffer.length - 1)).find?
          (fun i => decide (|buffer.getD (buffer.length - i) 0| < 1/5)) with _ | j
      · exact Nat.le_refl _
      · rw [find?_range'_eq_some_iff] at hfind
        have h1j := hfind.1
        show buffer.length - j ≤ buffer.length - 1
        omega
    omega

/-- Witness for `trim_bounds_spec` at the concrete non-silent one-sample
frame `[1]`. -/
theorem trim_bounds_spec_witness :
    ¬ isSilent [(1:ℚ)] ∧
    (((∃ i, i < halfLen [(1:ℚ)].length ∧ |[(1:ℚ)].getD i 0| < 1/5) →
        r1 [(1:ℚ)] < halfLen [(1:ℚ)].length ∧
        |[(1:ℚ)].getD (r1 [(1:ℚ)]) 0| < 1/5 ∧
        ∀ j, j < r1 [(1:ℚ)] → 1/5 ≤ |[(1:ℚ)].getD j 0|) ∧
     ((∀ i, i < halfLen [(1:ℚ)].length → 1/5 ≤ |[(1:ℚ)].getD i 0|) →
        r1 [(1:ℚ)] = 0) ∧
     ((∃ i, 1 ≤ i ∧ i < halfLen [(1:ℚ)].length ∧
           |[(1:ℚ)].getD ([(1:ℚ)].length - i) 0| < 1/5) →
        ∃ i, 1 ≤ i ∧ i < halfLen [(1:ℚ)].length ∧
          r2 [(1:ℚ)] = [(1:ℚ)].length - i ∧
          |[(1:ℚ)].getD ([(1:ℚ)].length - i) 0| < 1/5 ∧
          ∀ j, 1 ≤ j → j < i → 1/5 ≤ |[(1:ℚ)].getD ([(1:ℚ)].length - j) 0|) ∧
     ((∀ i, 1 ≤ i → i < halfLen [(1:ℚ)].length →
           1/5 ≤ |[(1:ℚ)].getD ([(1:ℚ)].length - i) 0|) →
        r2 [(1:ℚ)] = [(1:ℚ)].length - 1) ∧
     buf2 [(1:ℚ)] =
       (List.range (r2 [(1:ℚ)] - r1 [(1:ℚ)])).map
         (fun k => [(1:ℚ)].getD (r1 [(1:ℚ)] + k) 0)) :=
  ⟨by unfold isSilent sumSq; norm_num,
   trim_bounds_spec [(1:ℚ)] (by unfold isSilent sumSq; norm_num)⟩

/-- C8: for every runtime `log2`, every frequency other than the sentinel
`-1` and every positive tonic, `pitchToNote` returns the entry of the fixed
12-entry swara table at index `((round(12·log2(f/t)) mod 12) + 12) mod 12`,
an index that lies in `0..11` even when the rounded semitone count is
negative; the sentinel `-1` maps to `"-"` before any logarithm enters the
computation. -/
theorem pitchToNote_spec (log2 : ℚ → ℚ) (pitch baseFreq : ℚ)
    (hp : pitch ≠ -1) (_ht : 0 < baseFreq) :
    SWARA_MAPPING.length = 12 ∧
    0 ≤ ((round (12 * log2 (pitch / baseFreq)) % 12) + 12) % 12 ∧
    ((round (12 * log2 (pitch / baseFreq)) % 12) + 12) % 12 < 12 ∧
    pitchToNote log2 pitch baseFreq =
      SWARA_MAPPING.getD
        ((((round (12 * log2 (pitch / baseFreq)) % 12) + 12) % 12)).toNat "" ∧
    pitchToNote log2 (-1) baseFreq = "-" := by
  refine ⟨by decide, by omega, by omega, ?_, ?_⟩
  · unfold pitchToNote
    rw [if_neg hp]
  · unfold pitchToNote
    rw [if_pos rfl]

/-- Witness for `pitchToNote_spec` with a `log2` model giving a NEGATIVE
rounded semitone count (`12 · log2 = -13`). -/
theorem pitchToNote_spec_witness :
    (2:ℚ) ≠ -1 ∧ (0:ℚ) < 1 ∧
    (SWARA_MAPPING.length = 12 ∧
     0 ≤ ((round (12 * (fun _ : ℚ => -(13:ℚ)/12) ((2:ℚ) / 1)) % 12) + 12) % 12 ∧
     ((round (12 * (fun _ : ℚ => -(13:ℚ)/12) ((2:ℚ) / 1)) % 12) + 12) % 12 < 12 ∧
     pitchToNote (fun _ : ℚ => -(13:ℚ)/12) 2 1 =
       SWARA_MAPPING.getD
         ((((round (12 * (fun _ : ℚ => -(13:ℚ)/12) ((2:ℚ) / 1)) % 12) + 12) % 12)).toNat "" ∧
     pitchToNote (fun _ : ℚ => -(13:ℚ)/12) (-1) 1 = "-") :=
  ⟨by norm_num, by norm_num,
   pitchToNote_spec (fun _ : ℚ => -(13:ℚ)/12) 2 1 (by norm_num) (by norm_num)⟩

/-- The chroma index is always in `[0, 12)`. -/
theorem chroma_bounds (log2 : ℚ → ℚ) (freq : ℚ) :
    0 ≤ chroma log2 freq ∧ chroma log2 freq < 12 := by
  unfold chroma
  omega

/-- Characterization of the histogram pass from any start state with 12
bins: bin `k` gains one count per in-range observation of chroma `k`, and
`validSamples` gains one count per in-range observation. -/
theorem binState_go (log2 : ℚ → ℚ) (pd : List ℚ) :
    ∀ (bins : List ℕ) (v : ℕ), bins.length = 12 →
      (pd.foldl (binStep log2) (bins, v)).1.length = 12 ∧
      (pd.foldl (binStep log2) (bins, v)).2 =
        v + pd.countP (fun f => decide (50 < f ∧ f < 1000)) ∧
      ∀ k, k < 12 → (pd.foldl (binStep log2) (bins, v)).1.getD k 0 =
        bins.getD k 0 +
          pd.countP (fun f => decide (50 < f ∧ f < 1000) &&
            decide ((chroma log2 f).toNat = k)) := by
  induction pd with
  | nil => intro bins v hlen; simpa using hlen
  | cons p pd ih =>
    intro bins v hlen
    rw [List.foldl_cons]
    by_cases hp : 50 < p ∧ p < 1000
    · have hstep : binStep log2 (bins, v) p =
          (bins.set (chroma log2 p).toNat
            (bins.getD (chroma log2 p).toNat 0 + 1), v + 1) := by
        unfold binStep; rw [if_pos hp]
      rw [hstep]
      have hlen' : (bins.set (chroma log2 p).toNat
          (bins.getD (chroma log2 p).toNat 0 + 1)).length = 12 := by
        simpa using hlen
      obtain ⟨ih1, ih2, ih3⟩ := ih _ _ hlen'
      have hcb := chroma_bounds log2 p
      have hclt : (chroma log2 p).toNat < 12 := by omega
      refine ⟨ih1, ?_, ?_⟩
      · rw [ih2, List.countP_cons]
        have hpt : (decide (50 < p ∧ p < 1000)) = true := by simpa using hp
        rw [hpt, if_pos rfl]
        omega
      · intro k hk
        rw [ih3 k hk, List.countP_cons]
        by_cases hck : (chroma log2 p).toNat = k
        · have hpt : (decide (50 < p ∧ p < 1000) &&
              decide ((chroma log2 p).toNat = k)) = true := by
            simp [hp, hck]
          rw [hpt, if_pos rfl]
          subst hck
          rw [List.getD_eq_getElem?_getD, List.getElem?_set_self (by omega),
            Option.getD_some, List.getD_eq_getElem?_getD]
          omega
        · have hpt : (decide (50 < p ∧ p < 1000) &&
              decide ((chroma log2 p).toNat = k)) = false := by
            simp [hck]
          rw [hpt, if_neg (by simp)]
          rw [List.getD_eq_getElem?_getD, List.getElem?_set_ne hck,
            ← List.getD_eq_getElem?_getD]
          omega
    · have hstep : binStep log2 (bins, v) p = (bins, v) := by
        unfold binStep; rw [if_neg hp]
      rw [hstep]
      obtain ⟨ih1, ih2, ih3⟩ := ih bins v hlen
      refine ⟨ih1, ?_, ?_⟩
      · rw [ih2, List.countP_cons]
        have hpt : (decide (50 < p ∧ p < 1000)) = false := by
          simpa using hp
        rw [hpt, if_neg (by simp)]
        omega
      · intro k hk
        rw [ih3 k hk, List.countP_cons]
        have hpt : (decide (50 < p ∧ p < 1000) &&
            decide ((chroma log2 p).toNat = k)) = false := by
          simp [hp]
        rw [hpt, if_neg (by simp)]
        omega

/-- Characterization of the max-bin scan over the first `n` bins: the final
`maxVal` bounds every bin seen, and either nothing positive was seen (state
still `(0, 0)`) or `maxBin` is the first bin attaining the strictly greatest
count. -/
theorem maxBinScan_go (bins : List ℕ) (n : ℕ) :
    (∀ j, j < n → bins.getD j 0 ≤ ((List.range n).foldl (maxBinStep bins) (0, 0)).2) ∧
    (((List.range n).foldl (maxBinStep bins) (0, 0)) = (0, 0) ∨
      (((List.range n).foldl (maxBinStep bins) (0, 0)).1 < n ∧
       bins.getD ((List.range n).foldl (maxBinStep bins) (0, 0)).1 0 =
         ((List.range n).foldl (maxBinStep bins) (0, 0)).2 ∧
       0 < ((List.range n).foldl (maxBinStep bins) (0, 0)).2 ∧
       ∀ j, j < ((List.range n).foldl (maxBinStep bins) (0, 0)).1 →
         bins.getD j 0 < ((List.range n).foldl (maxBinStep bins) (0, 0)).2)) := by
  induction n with
  | zero => exact ⟨fun j hj => absurd hj (Nat.not_lt_zero j), Or.inl rfl⟩
  | succ n ih =>
    obtain ⟨ih1, ih2⟩ := ih
    rw [List.range_succ, List.foldl_append, List.foldl_cons, List.foldl_nil]
    set r := (List.range n).foldl (maxBinStep bins) (0, 0) with hr
    by_cases hgt : bins.getD n 0 > r.2
    · have hstep : maxBinStep bins r n = (n, bins.getD n 0) := by
        unfold maxBinStep; rw [if_pos hgt]
      rw [hstep]
      refine ⟨?_, Or.inr ⟨Nat.lt_succ_self n, rfl, by omega, ?_⟩⟩
      · intro j hj
        rcases Nat.lt_succ_iff_lt_or_eq.mp hj with hj' | rfl
        · exact le_of_lt (lt_of_le_of_lt (ih1 j hj') hgt)
        · exact le_refl _
      · intro j hj
        exact lt_of_le_of_lt (ih1 j hj) hgt
    · have hstep : maxBinStep bins r n = r := by
        unfold maxBinStep; rw [if_neg hgt]
      rw [hstep]
      refine ⟨?_, ?_⟩
      · intro j hj
        rcases Nat.lt_succ_iff_lt_or_eq.mp hj with hj' | rfl
        · exact ih1 j hj'
        · omega
      · rcases ih2 with h0 | ⟨ha, hb, hc, hd⟩
        · exact Or.inl h0
        · exact Or.inr ⟨by omega, hb, hc, hd⟩

/-- C9: `detectRootNoteFromPitchData` counts into the 12-bin chroma
histogram exactly the observations strictly between 50 Hz and 1000 Hz,
binned by the non-negative mod-12 reduction of the rounded semitone distance
from 261.63 Hz; it returns the entry of the C-rooted base-note table at the
first bin attaining the strictly greatest count, and returns the first
("C") entry when no observation is in range. -/
theorem detectRootNote_spec (log2 : ℚ → ℚ) (pitchData : List ℚ) :
    (binState log2 pitchData).2 =
      pitchData.countP (fun f => decide (50 < f ∧ f < 1000)) ∧
    (∀ k, k < 12 → (binState log2 pitchData).1.getD k 0 =
      pitchData.countP (fun f => decide (50 < f ∧ f < 1000) &&
        decide ((chroma log2 f).toNat = k))) ∧
    ((binState log2 pitchData).2 = 0 →
      detectRootNoteFromPitchData log2 pitchData = ("C", 261.63)) ∧
    (0 < (binState log2 pitchData).2 →
      ∃ k, k < 12 ∧
        detectRootNoteFromPitchData log2 pitchData = BASE_NOTES.getD k ("", 0) ∧
        (∀ j, j < 12 → (binState log2 pitchData).1.getD j 0 ≤
          (binState log2 pitchData).1.getD k 0) ∧
        (∀ j, j < k → (binState log2 pitchData).1.getD j 0 <
          (binState log2 pitchData).1.getD k 0)) := by
  obtain ⟨hb1, hb2, hb3⟩ :=
    binState_go log2 pitchData (List.replicate 12 0) 0 (by simp)
  have hb2' : (binState log2 pitchData).2 =
      pitchData.countP (fun f => decide (50 < f ∧ f < 1000)) := by
    have h0 : (binState log2 pitchData).2 =
        (pitchData.foldl (binStep log2) (List.replicate 12 0, 0)).2 := rfl
    rw [h0, hb2]
    omega
  have hb3' : ∀ k, k < 12 → (binState log2 pitchData).1.getD k 0 =
      pitchData.countP (fun f => decide (50 < f ∧ f < 1000) &&
        decide ((chroma log2 f).toNat = k)) := by
    intro k hk
    have h0 : (binState log2 pitchData).1 =
        (pitchData.foldl (binStep log2) (List.replicate 12 0, 0)).1 := rfl
    rw [h0, hb3 k hk, List.getD_eq_getElem?_getD, List.getElem?_replicate,
      if_pos hk]
    simp
  have hunfold : detectRootNoteFromPitchData log2 pitchData =
      (if (binState log2 pitchData).2 = 0 then BASE_NOTES.getD 0 ("", 0)
       else BASE_NOTES.getD (maxBinScan (binState log2 pitchData).1).1 ("", 0)) := rfl
  refine ⟨hb2', hb3', ?_, ?_⟩
  · intro hzero
    rw [hunfold, if_pos hzero]
    rfl
  · intro hpos
    rw [hunfold, if_neg (by omega)]
    obtain ⟨hm1, hm2⟩ := maxBinScan_go (binState log2 pitchData).1 12
    have hmaxeq : maxBinScan (binState log2 pitchData).1 =
        (List.range 12).foldl (maxBinStep (binState log2 pitchData).1) (0, 0) := rfl
    -- some bin is positive, so the scan cannot have stayed at (0, 0)
    have hsum : ∃ j, j < 12 ∧ 0 < (binState log2 pitchData).1.getD j 0 := by
      rw [hb2'] at hpos
      obtain ⟨f, hf, hfp⟩ := List.countP_pos_iff.mp hpos
      have hcb := chroma_bounds log2 f
      refine ⟨(chroma log2 f).toNat, by omega, ?_⟩
      rw [hb3' (chroma log2 f).toNat (by omega)]
      exact List.countP_pos_iff.mpr ⟨f, hf, by simp_all⟩
    rcases hm2 with hzero | ⟨hk1, hk2, hk3, hk4⟩
    · obtain ⟨j, hj, hjpos⟩ := hsum
      have := hm1 j hj
      rw [hzero] at this
      omega
    · refine ⟨(maxBinScan (binState log2 pitchData).1).1,
        by rw [hmaxeq]; exact hk1, rfl, ?_, ?_⟩
      · intro j hj
        rw [hmaxeq]
        exact le_of_le_of_eq (hm1 j hj) hk2.symm
      · intro j hj
        rw [hmaxeq] at hj ⊢
        rw [← hk2] at hk4
        exact hk4 j hj

/-- Witness for `detectRootNote_spec`: a concrete observation list with one
in-range (440 Hz) and one out-of-range (20 Hz) frequency, under the constant
`log2` model `fun _ => 0` (all in-range mass lands in chroma bin 0). -/
theorem detectRootNote_spec_witness :
    ([(440:ℚ), 20].countP (fun f => decide (50 < f ∧ f < 1000)) = 1) ∧
    (0 < (binState (fun _ : ℚ => 0) [(440:ℚ), 20]).2) ∧
    (∃ k, k < 12 ∧
      detectRootNoteFromPitchData (fun _ : ℚ => 0) [(440:ℚ), 20] =
        BASE_NOTES.getD k ("", 0) ∧
      (∀ j, j < 12 → (binState (fun _ : ℚ => 0) [(440:ℚ), 20]).1.getD j 0 ≤
        (binState (fun _ : ℚ => 0) [(440:ℚ), 20]).1.getD k 0) ∧
      (∀ j, j < k → (binState (fun _ : ℚ => 0) [(440:ℚ), 20]).1.getD j 0 <
        (binState (fun _ : ℚ => 0) [(440:ℚ), 20]).1.getD k 0)) := by
  have hcount : [(440:ℚ), 20].countP (fun f => decide (50 < f ∧ f < 1000)) = 1 := by
    norm_num [List.countP_cons]
  have hspec := detectRootNote_spec (fun _ : ℚ => 0) [(440:ℚ), 20]
  have hpos : 0 < (binState (fun _ : ℚ => 0) [(440:ℚ), 20]).2 := by
    rw [hspec.1, hcount]; omega
  exact ⟨hcount, hpos, hspec.2.2.2 hpos⟩

/-! ### processAudioData lemmas -/

/-- `lastTimeD` peels one sample off the front. -/
theorem lastTimeD_cons (p : PitchSample) (l : List PitchSample) (d : ℚ) :
    lastTimeD (p :: l) d = lastTimeD l p.time := by
  cases l with
  | nil => rfl
  | cons q l =>
    unfold lastTimeD
    rw [List.getLast?_cons_cons]
    rcases ho : (q :: l).getLast? with _ | e
    · exact absurd ho (by simp)
    · rfl

/-- A run of samples all carrying the same (non-silence) label condenses to
the single trailing note `{cur, start, max 50 (lastTime - start)}`. -/
theorem condenseAux_const (cur : String) (hcur : cur ≠ "-") :
    ∀ (rest : List PitchSample) (start prev : ℚ), (∀ p ∈ rest, p.note = cur) →
      condenseAux cur start prev rest =
        [⟨cur, start, max 50 (lastTimeD rest prev - start)⟩] := by
  intro rest
  induction rest with
  | nil =>
    intro start prev _
    unfold condenseAux
    rw [if_pos hcur]
    rfl
  | cons p rest ih =>
    intro start prev h
    have hp : p.note = cur := h p (by simp)
    unfold condenseAux
    rw [if_pos hp, ih start p.time (fun q hq => h q (by simp [hq])),
      lastTimeD_cons]

/-- If the right part of an append has a last element, it is the last
element of the whole append. -/
theorem getLast?_append_right {α : Type} {ys : List α} {e : α}
    (xs : List α) (h : ys.getLast? = some e) :
    (xs ++ ys).getLast? = some e := by
  rw [List.getLast?_append, h]
  rfl

/-- Core of the final-run behavior: if after some prefix the remaining input
is `r0 :: run'` (a maximal same-label run: all labels equal `r0.note`, the
current run label differs, and the prefix's last label differs), the LAST
condensed note is `{r0.note, r0.time, max 50 (lastTime - r0.time)}`. -/
theorem condenseAux_last_of_run (r0 : PitchSample) (hs : r0.note ≠ "-")
    (run' : List PitchSample) (hrun : ∀ p ∈ run', p.note = r0.note) :
    ∀ (pre : List PitchSample) (cur : String) (start prev : ℚ),
      (pre = [] → cur ≠ r0.note) →
      (∀ q, pre.getLast? = some q → q.note ≠ r0.note) →
      (condenseAux cur start prev (pre ++ r0 :: run')).getLast? =
        some ⟨r0.note, r0.time, max 50 (lastTimeD run' r0.time - r0.time)⟩ := by
  intro pre
  induction pre with
  | nil =>
    intro cur start prev hc _
    have hcur : cur ≠ r0.note := hc rfl
    rw [List.nil_append]
    unfold condenseAux
    rw [if_neg (fun h => hcur h.symm),
      condenseAux_const r0.note hs run' r0.time r0.time hrun]
    exact getLast?_append_right _ rfl
  | cons q pre' ih =>
    intro cur start prev _ hlast
    have hqlast : ∀ q', pre'.getLast? = some q' → q'.note ≠ r0.note := by
      intro q' hq'
      apply hlast
      have hne : pre' ≠ [] := by
        intro h0; rw [h0] at hq'; exact Option.noConfusion hq'
      rw [List.getLast?_cons, hq']
      rfl
    have hqnil : pre' = [] → q.note ≠ r0.note := by
      intro h0
      subst h0
      exact hlast q rfl
    rw [List.cons_append]
    unfold condenseAux
    by_cases hq : q.note = cur
    · rw [if_pos hq]
      exact ih cur start q.time (fun h0 => hq ▸ hqnil h0) hqlast
    · rw [if_neg hq]
      exact getLast?_append_right _
        (ih q.note q.time q.time hqnil hqlast)

/-- `condense` version of `condenseAux_last_of_run`. -/
theorem condense_last_run (pre : List PitchSample) (r0 : PitchSample)
    (run' : List PitchSample) (hs : r0.note ≠ "-")
    (hrun : ∀ p ∈ run', p.note = r0.note)
    (hlast : ∀ q, pre.getLast? = some q → q.note ≠ r0.note) :
    (condense (pre ++ r0 :: run')).getLast? =
      some ⟨r0.note, r0.time, max 50 (lastTimeD run' r0.time - r0.time)⟩ := by
  cases pre with
  | nil =>
    rw [List.nil_append]
    show (condenseAux r0.note r0.time r0.time run').getLast? = _
    rw [condenseAux_const r0.note hs run' r0.time r0.time hrun]
    rfl
  | cons q pre' =>
    rw [List.cons_append]
    show (condenseAux q.note q.time q.time (pre' ++ r0 :: run')).getLast? = _
    exact condenseAux_last_of_run r0 hs run' hrun pre' q.note q.time q.time
      (fun h0 => by
        subst h0
        exact hlast q rfl)
      (fun q' hq' => hlast q' (by
        have hne : pre' ≠ [] := by
          intro h0; rw [h0] at hq'; exact Option.noConfusion hq'
        rw [List.getLast?_cons, hq']
        rfl))

/-- Skipping the `duration ≤ 40` notes during the statistics fold is the
same as folding over the filtered list. -/
theorem statsMapFold_filter :
    ∀ (l : List DetectedNote) (st : (String → ℚ) × ℚ),
      l.foldl statsStep st =
        (l.filter (fun n => n.duration > 40)).foldl statsStep st := by
  intro l
  induction l with
  | nil => intro st; rfl
  | cons n l ih =>
    intro st
    rw [List.foldl_cons]
    by_cases hn : n.duration > 40
    · rw [List.filter_cons_of_pos (by simpa using hn), List.foldl_cons, ih]
    · have hid : statsStep st n = st := by
        unfold statsStep; rw [if_neg hn]
      rw [hid, List.filter_cons_of_neg (by simpa using hn), ih]

/-- Every note that the condensation emits carries a swara label, provided
the incoming labels are swaras or `"-"` (silence runs are dropped). -/
theorem condenseAux_mem_swara :
    ∀ (rest : List PitchSample) (cur : String) (start prev : ℚ),
      (cur ∈ SWARA_MAPPING ∨ cur = "-") →
      (∀ p ∈ rest, p.note ∈ SWARA_MAPPING ∨ p.note = "-") →
      ∀ n ∈ condenseAux cur start prev rest, n.note ∈ SWARA_MAPPING := by
  intro rest
  induction rest with
  | nil =>
    intro cur start prev hcur _ n hn
    unfold condenseAux at hn
    by_cases hc : cur ≠ "-"
    · rw [if_pos hc] at hn
      obtain rfl : n = ⟨cur, start, max 50 (prev - start)⟩ := by simpa using hn
      exact hcur.resolve_right hc
    · rw [if_neg hc] at hn
      simp at hn
  | cons p rest ih =>
    intro cur start prev hcur hrest n hn
    unfold condenseAux at hn
    by_cases hp : p.note = cur
    · rw [if_pos hp] at hn
      exact ih cur start p.time hcur (fun q hq => hrest q (by simp [hq])) n hn
    · rw [if_neg hp] at hn
      rcases List.mem_append.mp hn with hn1 | hn2
      · by_cases hc : cur ≠ "-"
        · rw [if_pos hc] at hn1
          obtain rfl : n = ⟨cur, start, p.time - start⟩ := by simpa using hn1
          exact hcur.resolve_right hc
        · rw [if_neg hc] at hn1
          simp at hn1
      · exact ih p.note p.time p.time (hrest p (by simp))
          (fun q hq => hrest q (by simp [hq])) n hn2

/-- `SWARA_MAPPING` has no duplicate labels. -/
theorem swara_nodup : SWARA_MAPPING.Nodup := by decide

/-- Invariants of the statistics fold: all totals stay non-negative, each
swara's total stays below the grand total, and the grand total is exactly
the sum of the 12 swara totals. -/
theorem statsMapFold_inv :
    ∀ (l : List DetectedNote) (f : String → ℚ) (t : ℚ),
      (∀ n ∈ l, n.note ∈ SWARA_MAPPING) →
      (∀ s, 0 ≤ f s) → (∀ s, f s ≤ t) →
      (SWARA_MAPPING.map f).sum = t →
      (∀ s, 0 ≤ (l.foldl statsStep (f, t)).1 s) ∧
      (∀ s, (l.foldl statsStep (f, t)).1 s ≤ (l.foldl statsStep (f, t)).2) ∧
      (SWARA_MAPPING.map (l.foldl statsStep (f, t)).1).sum =
        (l.foldl statsStep (f, t)).2 := by
  intro l
  induction l with
  | nil => intro f t _ h1 h2 h3; exact ⟨h1, h2, h3⟩
  | cons n l ih =>
    intro f t hmem h1 h2 h3
    rw [List.foldl_cons]
    by_cases hn : n.duration > 40
    · have hstep : statsStep (f, t) n =
          (Function.update f n.note (f n.note + n.duration), t + n.duration) := by
        unfold statsStep; rw [if_pos hn]
      rw [hstep]
      have hd : (0:ℚ) < n.duration := by linarith
      apply ih
      · exact fun q hq => hmem q (by simp [hq])
      · intro s
        rcases eq_or_ne s n.note with heq | hne
        · rw [heq, Function.update_same]
          have h0 := h1 n.note
          linarith
        · rw [Function.update_noteq hne]
          exact h1 s
      · intro s
        rcases eq_or_ne s n.note with heq | hne
        · rw [heq, Function.update_same]
          have h0 := h2 n.note
          linarith
        · rw [Function.update_noteq hne]
          have h0 := h2 s
          linarith
      · rw [sum_map_update SWARA_MAPPING swara_nodup f n.note
          (hmem n (by simp)) _, h3]
        ring
    · have hstep : statsStep (f, t) n = (f, t) := by
        unfold statsStep; rw [if_neg hn]
      rw [hstep]
      exact ih f t (fun q hq => hmem q (by simp [hq])) h1 h2 h3

/-- C3 counterexample: on the empty input sequence `processAudioData`
returns an EMPTY `noteStats` list (the early `length === 0` return), not a
12-entry all-zero list. -/
theorem processAudioData_empty :
    processAudioData ([] : List PitchSample) = ([], []) ∧
    (processAudioData ([] : List PitchSample)).2.length = 0 ∧
    (processAudioData ([] : List PitchSample)).2.length ≠ 12 :=
  ⟨rfl, rfl, by decide⟩

/-- C3 amended: for every NON-empty input (with well-formed labels), the
returned `noteStats` has exactly 12 entries, one per swara in swara-table
order; the empty input yields the empty note stream and an empty (not
12-entry) `noteStats`. -/
theorem noteStats_twelve (pd : List PitchSample) (hpd : pd ≠ [])
    (_hwf : ∀ p ∈ pd, p.note ∈ SWARA_MAPPING ∨ p.note = "-") :
    (processAudioData pd).2.map NoteStat.note = SWARA_MAPPING ∧
    (processAudioData pd).2.length = 12 ∧
    processAudioData ([] : List PitchSample) = ([], []) := by
  cases pd with
  | nil => exact absurd rfl hpd
  | cons p rest =>
    have hstats : (processAudioData (p :: rest)).2 =
        SWARA_MAPPING.map (fun note =>
          ({ note := note,
             duration := (statsMapFold (condense (p :: rest))).1 note,
             normalizedDuration :=
               if (statsMapFold (condense (p :: rest))).2 > 0 then
                 (statsMapFold (condense (p :: rest))).1 note /
                   (statsMapFold (condense (p :: rest))).2
               else 0 } : NoteStat)) := rfl
    refine ⟨?_, ?_, rfl⟩
    · rw [hstats, List.map_map]
      show SWARA_MAPPING.map (fun s => s) = SWARA_MAPPING
      exact List.map_id' SWARA_MAPPING
    · rw [hstats, List.length_map]
      decide

/-- Witness for `noteStats_twelve` on a concrete one-sample input. -/
theorem noteStats_twelve_witness :
    ([⟨0, 100, "Sa"⟩] : List PitchSample) ≠ [] ∧
    (∀ p ∈ ([⟨0, 100, "Sa"⟩] : List PitchSample),
      p.note ∈ SWARA_MAPPING ∨ p.note = "-") ∧
    ((processAudioData [⟨0, 100, "Sa"⟩]).2.map NoteStat.note = SWARA_MAPPING ∧
     (processAudioData [⟨0, 100, "Sa"⟩]).2.length = 12 ∧
     processAudioData ([] : List PitchSample) = ([], [])) := by
  have hwf : ∀ p ∈ ([⟨0, 100, "Sa"⟩] : List PitchSample),
      p.note ∈ SWARA_MAPPING ∨ p.note = "-" := by
    intro p hp
    left
    obtain rfl : p = ⟨0, 100, "Sa"⟩ := by simpa using hp
    decide
  exact ⟨by simp, hwf, noteStats_twelve [⟨0, 100, "Sa"⟩] (by simp) hwf⟩

/-- C6: the per-entry `normalizedDuration` values lie in `[0, 1]`; they sum
to exactly 1 whenever the total surviving duration is positive, and are all
0 when that total is 0. -/
theorem stats_normalization (pd : List PitchSample)
    (hwf : ∀ p ∈ pd, p.note ∈ SWARA_MAPPING ∨ p.note = "-") :
    (∀ st ∈ (processAudioData pd).2,
       0 ≤ st.normalizedDuration ∧ st.normalizedDuration ≤ 1) ∧
    (0 < (statsMapFold (condense pd)).2 →
       ((processAudioData pd).2.map NoteStat.normalizedDuration).sum = 1) ∧
    ((statsMapFold (condense pd)).2 = 0 →
       ∀ st ∈ (processAudioData pd).2, st.normalizedDuration = 0) := by
  cases pd with
  | nil =>
    have h2 : (processAudioData ([] : List PitchSample)).2 = [] := rfl
    have h0 : (statsMapFold (condense ([] : List PitchSample))).2 = 0 := rfl
    refine ⟨?_, ?_, ?_⟩
    · intro x hx
      rw [h2] at hx
      exact absurd hx (List.not_mem_nil x)
    · intro hpos
      rw [h0] at hpos
      exact absurd hpos (lt_irrefl 0)
    · intro _ x hx
      rw [h2] at hx
      exact absurd hx (List.not_mem_nil x)
  | cons p rest =>
    have hswara : ∀ n ∈ condense (p :: rest), n.note ∈ SWARA_MAPPING := by
      unfold condense
      exact condenseAux_mem_swara rest p.note p.time p.time
        (hwf p (by simp)) (fun q hq => hwf q (by simp [hq]))
    obtain ⟨hinv1, hinv2, hinv3⟩ :=
      statsMapFold_inv (condense (p :: rest)) (fun _ => 0) 0 hswara
        (fun s => le_refl 0) (fun s => le_refl 0) (by simp)
    have hinv1' : ∀ s, 0 ≤ (statsMapFold (condense (p :: rest))).1 s := hinv1
    have hinv2' : ∀ s, (statsMapFold (condense (p :: rest))).1 s ≤
        (statsMapFold (condense (p :: rest))).2 := hinv2
    have hinv3' : (SWARA_MAPPING.map (statsMapFold (condense (p :: rest))).1).sum =
        (statsMapFold (condense (p :: rest))).2 := hinv3
    set st := statsMapFold (condense (p :: rest)) with hst
    have hstats : (processAudioData (p :: rest)).2 =
        SWARA_MAPPING.map (fun note =>
          { note := note, duration := st.1 note,
            normalizedDuration :=
              if st.2 > 0 then st.1 note / st.2 else 0 : NoteStat }) := rfl
    refine ⟨?_, ?_, ?_⟩
    · intro x hx
      rw [hstats] at hx
      obtain ⟨s, _, rfl⟩ := List.mem_map.mp hx
      by_cases hpos : st.2 > 0
      · simp only [hpos, if_pos]
        constructor
        · exact div_nonneg (hinv1' s) (le_of_lt hpos)
        · rw [div_le_one hpos]
          exact hinv2' s
      · simp only [hpos, if_neg, not_false_iff]
        norm_num
    · intro hpos
      rw [hstats, List.map_map]
      have hcongr : (SWARA_MAPPING.map
          (NoteStat.normalizedDuration ∘ fun note =>
            ({ note := note, duration := st.1 note,
               normalizedDuration :=
                 if st.2 > 0 then st.1 note / st.2 else 0 } : NoteStat))) =
          SWARA_MAPPING.map (fun s => st.1 s / st.2) := by
        apply List.map_congr_left
        intro s _
        simp only [Function.comp_apply]
        rw [if_pos hpos]
      rw [hcongr, sum_map_div, hinv3', div_self (ne_of_gt hpos)]
    · intro hzero x hx
      rw [hstats] at hx
      obtain ⟨s, _, rfl⟩ := List.mem_map.mp hx
      simp only
      rw [if_neg (by rw [hzero]; exact lt_irrefl 0)]

/-- Witness for `stats_normalization` on a concrete one-sample input. -/
theorem stats_normalization_witness :
    (∀ p ∈ ([⟨0, 100, "Sa"⟩] : List PitchSample),
      p.note ∈ SWARA_MAPPING ∨ p.note = "-") ∧
    ((∀ st ∈ (processAudioData [⟨0, 100, "Sa"⟩]).2,
       0 ≤ st.normalizedDuration ∧ st.normalizedDuration ≤ 1) ∧
     (0 < (statsMapFold (condense [⟨0, 100, "Sa"⟩])).2 →
       ((processAudioData [⟨0, 100, "Sa"⟩]).2.map
         NoteStat.normalizedDuration).sum = 1) ∧
     ((statsMapFold (condense [⟨0, 100, "Sa"⟩])).2 = 0 →
       ∀ st ∈ (processAudioData [⟨0, 100, "Sa"⟩]).2,
         st.normalizedDuration = 0)) :=
  by
  have hwf : ∀ p ∈ ([⟨0, 100, "Sa"⟩] : List PitchSample),
      p.note ∈ SWARA_MAPPING ∨ p.note = "-" := by
    intro p hp
    left
    obtain rfl : p = ⟨0, 100, "Sa"⟩ := by simpa using hp
    decide
  exact ⟨hwf, stats_normalization [⟨0, 100, "Sa"⟩] hwf⟩

/-- C7: the final run of identical non-silence labels is emitted with
duration `max(50, lastObservedTime - runStartTime)`, and every note with
duration ≤ 40 ms is excluded from both the returned note stream and the
statistics accumulation. -/
theorem final_run_and_noise_filter (pre : List PitchSample)
    (r0 : PitchSample) (run' : List PitchSample) (hs : r0.note ≠ "-")
    (hrun : ∀ p ∈ run', p.note = r0.note)
    (hlast : ∀ q, pre.getLast? = some q → q.note ≠ r0.note) :
    (condense (pre ++ r0 :: run')).getLast? =
      some ⟨r0.note, r0.time,
        max 50 (lastTimeD (pre ++ r0 :: run') 0 - r0.time)⟩ ∧
    (processAudioData (pre ++ r0 :: run')).1 =
      (condense (pre ++ r0 :: run')).filter (fun n => n.duration > 40) ∧
    (∀ n ∈ (processAudioData (pre ++ r0 :: run')).1, 40 < n.duration) ∧
    statsMapFold (condense (pre ++ r0 :: run')) =
      statsMapFold
        ((condense (pre ++ r0 :: run')).filter (fun n => n.duration > 40)) := by
  have hlt : lastTimeD (pre ++ r0 :: run') 0 = lastTimeD run' r0.time := by
    unfold lastTimeD
    rw [List.getLast?_append]
    cases run' with
    | nil => rfl
    | cons q run'' =>
      rw [List.getLast?_cons_cons]
      have : (q :: run'').getLast? ≠ none := by
        simp
      rcases ho : (q :: run'').getLast? with _ | e
      · exact absurd ho this
      · rfl
  have hfilter : (processAudioData (pre ++ r0 :: run')).1 =
      (condense (pre ++ r0 :: run')).filter (fun n => n.duration > 40) := by
    rcases pre with _ | ⟨q, pre'⟩ <;> rfl
  refine ⟨?_, hfilter, ?_, statsMapFold_filter _ _⟩
  · rw [hlt]
    exact condense_last_run pre r0 run' hs hrun hlast
  · intro n hn
    rw [hfilter] at hn
    have := List.of_mem_filter hn
    simpa using this

/-- Witness for `final_run_and_noise_filter` on a concrete trace: a "Re"
frame followed by a final two-frame "Sa" run. -/
theorem final_run_witness :
    (⟨100, 0, "Sa"⟩ : PitchSample).note ≠ "-" ∧
    (∀ p ∈ ([⟨150, 0, "Sa"⟩] : List PitchSample),
      p.note = (⟨100, 0, "Sa"⟩ : PitchSample).note) ∧
    (∀ q, ([⟨0, 0, "Re"⟩] : List PitchSample).getLast? = some q →
      q.note ≠ (⟨100, 0, "Sa"⟩ : PitchSample).note) ∧
    ((condense ([⟨0, 0, "Re"⟩] ++ ⟨100, 0, "Sa"⟩ :: [⟨150, 0, "Sa"⟩])).getLast? =
      some ⟨"Sa", 100,
        max 50 (lastTimeD ([⟨0, 0, "Re"⟩] ++ ⟨100, 0, "Sa"⟩ :: [⟨150, 0, "Sa"⟩]) 0 - 100)⟩ ∧
     (processAudioData ([⟨0, 0, "Re"⟩] ++ ⟨100, 0, "Sa"⟩ :: [⟨150, 0, "Sa"⟩])).1 =
      (condense ([⟨0, 0, "Re"⟩] ++ ⟨100, 0, "Sa"⟩ :: [⟨150, 0, "Sa"⟩])).filter
        (fun n => n.duration > 40) ∧
     (∀ n ∈ (processAudioData ([⟨0, 0, "Re"⟩] ++ ⟨100, 0, "Sa"⟩ :: [⟨150, 0, "Sa"⟩])).1,
       40 < n.duration) ∧
     statsMapFold (condense ([⟨0, 0, "Re"⟩] ++ ⟨100, 0, "Sa"⟩ :: [⟨150, 0, "Sa"⟩])) =
      statsMapFold
        ((condense ([⟨0, 0, "Re"⟩] ++ ⟨100, 0, "Sa"⟩ :: [⟨150, 0, "Sa"⟩])).filter
          (fun n => n.duration > 40))) := by
  have h1 : (⟨100, 0, "Sa"⟩ : PitchSample).note ≠ "-" := by decide
  have h2 : ∀ p ∈ ([⟨150, 0, "Sa"⟩] : List PitchSample),
      p.note = (⟨100, 0, "Sa"⟩ : PitchSample).note := by
    intro p hp
    obtain rfl : p = ⟨150, 0, "Sa"⟩ := by simpa using hp
    rfl
  have h3 : ∀ q, ([⟨0, 0, "Re"⟩] : List PitchSample).getLast? = some q →
      q.note ≠ (⟨100, 0, "Sa"⟩ : PitchSample).note := by
    intro q hq
    obtain rfl : q = ⟨0, 0, "Re"⟩ := by
      rw [List.getLast?_singleton] at hq
      exact (Option.some.injEq _ _ ▸ hq).symm ▸ rfl
    decide
  exact ⟨h1, h2, h3, final_run_and_noise_filter [⟨0, 0, "Re"⟩] ⟨100, 0, "Sa"⟩
    [⟨150, 0, "Sa"⟩] h1 h2 h3⟩

/-- C10: a single-element input `[(t, s)]` with a swara label yields exactly
one `DetectedNote {s, t, 50}` (the 50 ms trailing floor applies to the
zero-length final run), which survives the 40 ms glitch filter and
contributes 50 ms to its swara's statistics. -/
theorem single_sample_spec (t f : ℚ) (s : String) (hs : s ∈ SWARA_MAPPING) :
    (processAudioData [⟨t, f, s⟩]).1 = [⟨s, t, 50⟩] ∧
    (40:ℚ) < 50 ∧
    (∀ st ∈ (processAudioData [⟨t, f, s⟩]).2,
      (st.note = s → st.duration = 50 ∧ st.normalizedDuration = 1) ∧
      (st.note ≠ s → st.duration = 0 ∧ st.normalizedDuration = 0)) := by
  have hsne : s ≠ "-" := by
    rintro rfl
    revert hs
    decide
  have hcond : condenseAux s t t [] = [⟨s, t, 50⟩] := by
    unfold condenseAux
    rw [if_pos hsne, sub_self, max_eq_left (by norm_num)]
  have hstream : (processAudioData [⟨t, f, s⟩]).1 =
      (condenseAux s t t []).filter (fun n => n.duration > 40) := rfl
  have hst : statsMapFold (condenseAux s t t []) =
      (Function.update (fun _ => (0:ℚ)) s (0 + 50), 0 + 50) := by
    rw [hcond]
    show statsStep (fun _ => 0, 0) ⟨s, t, 50⟩ = _
    unfold statsStep
    rw [if_pos (by norm_num)]
  have hstats : (processAudioData [⟨t, f, s⟩]).2 =
      SWARA_MAPPING.map (fun note =>
        { note := note,
          duration := (statsMapFold (condenseAux s t t [])).1 note,
          normalizedDuration :=
            if (statsMapFold (condenseAux s t t [])).2 > 0 then
              (statsMapFold (condenseAux s t t [])).1 note /
                (statsMapFold (condenseAux s t t [])).2
            else 0 : NoteStat }) := rfl
  refine ⟨?_, by norm_num, ?_⟩
  · rw [hstream, hcond]
    rw [List.filter_cons_of_pos (by norm_num)]
    rfl
  · intro st hmem
    rw [hstats] at hmem
    obtain ⟨w, _, rfl⟩ := List.mem_map.mp hmem
    rw [hst]
    constructor
    · intro hw
      have hw' : w = s := hw
      subst hw'
      simp only [Function.update_same]
      norm_num
    · intro hw
      have hw' : w ≠ s := hw
      simp only [Function.update_noteq hw']
      norm_num

/-- Witness for `single_sample_spec` at `t = 3`, `f = 100`, `s = "Sa"`. -/
theorem single_sample_spec_witness :
    "Sa" ∈ SWARA_MAPPING ∧
    ((processAudioData [⟨3, 100, "Sa"⟩]).1 = [⟨"Sa", 3, 50⟩] ∧
     (40:ℚ) < 50 ∧
     (∀ st ∈ (processAudioData [⟨3, 100, "Sa"⟩]).2,
       (st.note = "Sa" → st.duration = 50 ∧ st.normalizedDuration = 1) ∧
       (st.note ≠ "Sa" → st.duration = 0 ∧ st.normalizedDuration = 0))) :=
  ⟨by decide, single_sample_spec 3 100 "Sa" (by decide)⟩

end AudioProcessor

namespace RagaEngine

/-! ### RagaEngine lemmas -/

/-- The overlap fold from any accumulator: `presentNotesScore` gains 2 per
significant in-scale note, `forbiddenPenalty` gains 5 per significant
out-of-scale note. -/
theorem overlapFold_go (ragaNotes : List String) :
    ∀ (l : List NoteStat) (pp : ℚ × ℚ),
      l.foldl (overlapStep ragaNotes) pp =
        (pp.1 + 2 * (l.countP (fun n => decide (n.normalizedDuration > 1/20) &&
            ragaNotes.contains n.note) : ℚ),
         pp.2 + 5 * (l.countP (fun n => decide (n.normalizedDuration > 1/20) &&
            !(ragaNotes.contains n.note)) : ℚ)) := by
  intro l
  induction l with
  | nil => intro pp; simp
  | cons n l ih =>
    intro pp
    rw [List.foldl_cons]
    by_cases hsig : n.normalizedDuration > 1/20
    · by_cases hmem : ragaNotes.contains n.note
      · have hstep : overlapStep ragaNotes pp n = (pp.1 + 2, pp.2) := by
          unfold overlapStep; rw [if_pos hsig, if_pos hmem]
        have h1 : (decide (n.normalizedDuration > 1/20) &&
            ragaNotes.contains n.note) = true := by
          rw [Bool.and_eq_true]
          exact ⟨decide_eq_true hsig, hmem⟩
        have h2 : (decide (n.normalizedDuration > 1/20) &&
            !(ragaNotes.contains n.note)) = false := by
          rw [hmem, Bool.not_true, Bool.and_false]
        rw [hstep, ih,
          List.countP_cons_of_pos
            (fun n => decide (n.normalizedDuration > 1/20) &&
              ragaNotes.contains n.note) l h1,
          List.countP_cons_of_neg
            (fun n => decide (n.normalizedDuration > 1/20) &&
              !(ragaNotes.contains n.note)) l
            (fun hcon => absurd (h2.symm.trans hcon) Bool.false_ne_true)]
        simp only [Prod.mk.injEq]
        constructor <;> (push_cast; try ring)
      · have hmem' : ragaNotes.contains n.note = false :=
          Bool.eq_false_iff.mpr hmem
        have hstep : overlapStep ragaNotes pp n = (pp.1, pp.2 + 5) := by
          unfold overlapStep; rw [if_pos hsig, if_neg hmem]
        have h1 : (decide (n.normalizedDuration > 1/20) &&
            ragaNotes.contains n.note) = false := by
          rw [hmem', Bool.and_false]
        have h2 : (decide (n.normalizedDuration > 1/20) &&
            !(ragaNotes.contains n.note)) = true := by
          rw [hmem', Bool.not_false, Bool.and_true]
          exact decide_eq_true hsig
        rw [hstep, ih,
          List.countP_cons_of_neg
            (fun n => decide (n.normalizedDuration > 1/20) &&
              ragaNotes.contains n.note) l
            (fun hcon => absurd (h1.symm.trans hcon) Bool.false_ne_true),
          List.countP_cons_of_pos
            (fun n => decide (n.normalizedDuration > 1/20) &&
              !(ragaNotes.contains n.note)) l h2]
        simp only [Prod.mk.injEq]
        constructor <;> (push_cast; try ring)
    · have hsig' : decide (n.normalizedDuration > 1/20) = false := by
        simpa using hsig
      have hstep : overlapStep ragaNotes pp n = pp := by
        unfold overlapStep; rw [if_neg hsig]
      have h1 : (decide (n.normalizedDuration > 1/20) &&
          ragaNotes.contains n.note) = false := by
        rw [hsig', Bool.false_and]
      have h2 : (decide (n.normalizedDuration > 1/20) &&
          !(ragaNotes.contains n.note)) = false := by
        rw [hsig', Bool.false_and]
      rw [hstep, ih,
        List.countP_cons_of_neg
          (fun n => decide (n.normalizedDuration > 1/20) &&
            ragaNotes.contains n.note) l
          (fun hcon => absurd (h1.symm.trans hcon) Bool.false_ne_true),
        List.countP_cons_of_neg
          (fun n => decide (n.normalizedDuration > 1/20) &&
            !(ragaNotes.contains n.note)) l
          (fun hcon => absurd (h2.symm.trans hcon) Bool.false_ne_true)]

/-- The phrase fold from any accumulator: +20 score and +1 `phraseMatches`
per matching pattern. -/
theorem phraseFold_go (streamStr : List Char) :
    ∀ (pats : List (List String)) (acc : ℚ × ℕ),
      pats.foldl (phraseStep streamStr) acc =
        (acc.1 + 20 * (pats.countP (fun pat =>
            stringIncludes streamStr (sepJoin (pat.map String.data))) : ℚ),
         acc.2 + pats.countP (fun pat =>
            stringIncludes streamStr (sepJoin (pat.map String.data)))) := by
  intro pats
  induction pats with
  | nil => intro acc; simp
  | cons pat pats ih =>
    intro acc
    rw [List.foldl_cons]
    by_cases hm : stringIncludes streamStr (sepJoin (pat.map String.data)) = true
    · have hstep : phraseStep streamStr acc pat = (acc.1 + 20, acc.2 + 1) := by
        unfold phraseStep; rw [if_pos hm]
      rw [hstep, ih,
        List.countP_cons_of_pos
          (fun pat => stringIncludes streamStr (sepJoin (pat.map String.data)))
          pats hm]
      simp only [Prod.mk.injEq]
      constructor
      · push_cast; ring
      · omega
    · have hstep : phraseStep streamStr acc pat = acc := by
        unfold phraseStep; rw [if_neg hm]
      rw [hstep, ih,
        List.countP_cons_of_neg
          (fun pat => stringIncludes streamStr (sepJoin (pat.map String.data)))
          pats hm]

/-- Totality of the JS `sort` comparator `(a, b) => b.score - a.score`. -/
theorem scoreLE_total (a b : RagaScore) :
    (decide (b.score ≤ a.score) || decide (a.score ≤ b.score)) = true := by
  rcases le_total b.score a.score with h | h <;> simp [h]

/-- Transitivity of the comparator. -/
theorem scoreLE_trans (a b c : RagaScore)
    (h1 : decide (b.score ≤ a.score) = true)
    (h2 : decide (c.score ≤ b.score) = true) :
    decide (c.score ≤ a.score) = true := by
  simp only [decide_eq_true_eq] at *
  exact le_trans h2 h1

/-- Stable sort preserves the relative order inside any class of mutually
tied elements: filtering by such a class commutes with `mergeSort`. -/
theorem mergeSort_filter_tied (le : RagaScore → RagaScore → Bool)
    (trans : ∀ a b c, le a b → le b c → le a c)
    (total : ∀ a b, le a b || le b a)
    (l : List RagaScore) (p : RagaScore → Bool)
    (hp : ∀ a b, p a = true → p b = true → le a b = true) :
    (l.mergeSort le).filter p = l.filter p := by
  have hpw : (l.filter p).Pairwise (fun a b => le a b) := by
    apply List.pairwise_of_forall_mem_list
    intro a ha b hb
    exact hp a b (List.of_mem_filter ha) (List.of_mem_filter hb)
  have hsub : List.Sublist (l.filter p) (l.mergeSort le) :=
    List.sublist_mergeSort trans total hpw (List.filter_sublist l)
  have hsub2 : List.Sublist ((l.filter p).filter p)
      ((l.mergeSort le).filter p) :=
    List.Sublist.filter p hsub
  rw [List.filter_eq_self.mpr (fun a ha => List.of_mem_filter ha)] at hsub2
  have hlen : ((l.mergeSort le).filter p).length = (l.filter p).length :=
    ((List.mergeSort_perm l le).filter p).length_eq
  exact (List.Sublist.eq_of_length hsub2 hlen.symm).symm

/-- The per-raga score record, with every `let` of the source expanded. -/
theorem scoreRaga_eq (noteStats : List NoteStat)
    (noteStream : List DetectedNote) (raga : Raga) :
    scoreRaga noteStats noteStream raga =
      { raga := raga
        score :=
          (if (((sortedNotes noteStats).take 3).map (fun n => n.note)).contains
              raga.vaadi then 10 else 0) +
          (if (((sortedNotes noteStats).take 3).map (fun n => n.note)).contains
              raga.samvaadi then 10 else 0) +
          ((overlapFold (raga.aaroh ++ raga.avaroh) (sortedNotes noteStats)).1 -
           (overlapFold (raga.aaroh ++ raga.avaroh) (sortedNotes noteStats)).2) +
          (phraseFold (sepJoin ((noteStream.map (fun n => n.note)).map
            String.data)) (allPatterns raga)).1
        matchDetails :=
          { vaadiMatch :=
              (((sortedNotes noteStats).take 3).map (fun n => n.note)).contains
                raga.vaadi
            samvaadiMatch :=
              (((sortedNotes noteStats).take 3).map (fun n => n.note)).contains
                raga.samvaadi
            phraseMatches :=
              (phraseFold (sepJoin ((noteStream.map (fun n => n.note)).map
                String.data)) (allPatterns raga)).2
            noteOverlapScore :=
              (overlapFold (raga.aaroh ++ raga.avaroh) (sortedNotes noteStats)).1 -
              (overlapFold (raga.aaroh ++ raga.avaroh) (sortedNotes noteStats)).2 } } :=
  rfl

/-- C4: `analyze` returns exactly one `RagaScore` per corpus raga (a
permutation of the per-raga map), sorted descending by score, with exact
ties preserving corpus order, and each raga's score is
`10·vaadiMatch + 10·samvaadiMatch + noteOverlapScore + 20·phraseMatches`
where `noteOverlapScore` adds 2 per significant (normalizedDuration > 0.05)
note inside the aaroh∪avaroh union and subtracts 5 per significant note
outside it, recorded unclamped in `matchDetails`. -/
theorem analyze_spec (ragaData : List Raga) (noteStats : List NoteStat)
    (noteStream : List DetectedNote) :
    (analyze ragaData noteStats noteStream).Perm
      (ragaData.map (scoreRaga noteStats noteStream)) ∧
    (analyze ragaData noteStats noteStream).Pairwise
      (fun a b => b.score ≤ a.score) ∧
    (∀ q : ℚ, (analyze ragaData noteStats noteStream).filter
        (fun x => decide (x.score = q)) =
      (ragaData.map (scoreRaga noteStats noteStream)).filter
        (fun x => decide (x.score = q))) ∧
    (∀ raga : Raga,
      (scoreRaga noteStats noteStream raga).matchDetails.vaadiMatch =
        (((sortedNotes noteStats).take 3).map (fun n => n.note)).contains
          raga.vaadi ∧
      (scoreRaga noteStats noteStream raga).matchDetails.samvaadiMatch =
        (((sortedNotes noteStats).take 3).map (fun n => n.note)).contains
          raga.samvaadi ∧
      (scoreRaga noteStats noteStream raga).matchDetails.noteOverlapScore =
        2 * (noteStats.countP (fun n => decide (n.normalizedDuration > 1/20) &&
              (raga.aaroh ++ raga.avaroh).contains n.note) : ℚ) -
        5 * (noteStats.countP (fun n => decide (n.normalizedDuration > 1/20) &&
              !((raga.aaroh ++ raga.avaroh).contains n.note)) : ℚ) ∧
      (scoreRaga noteStats noteStream raga).score =
        (if (scoreRaga noteStats noteStream raga).matchDetails.vaadiMatch
          then 10 else 0) +
        (if (scoreRaga noteStats noteStream raga).matchDetails.samvaadiMatch
          then 10 else 0) +
        (scoreRaga noteStats noteStream raga).matchDetails.noteOverlapScore +
        20 * ((scoreRaga noteStats noteStream raga).matchDetails.phraseMatches : ℚ)) := by
  have hperm : (analyze ragaData noteStats noteStream).Perm
      (ragaData.map (scoreRaga noteStats noteStream)) :=
    List.mergeSort_perm _ _
  have hsortPerm : (sortedNotes noteStats).Perm noteStats :=
    List.mergeSort_perm _ _
  refine ⟨hperm, ?_, ?_, ?_⟩
  · have hpw := @List.sorted_mergeSort RagaScore
      (fun a b => decide (b.score ≤ a.score))
      (fun a b c h1 h2 => scoreLE_trans a b c h1 h2)
      (fun a b => scoreLE_total a b)
      (ragaData.map (scoreRaga noteStats noteStream))
    exact hpw.imp (fun h => by simpa using h)
  · intro q
    exact mergeSort_filter_tied _
      (fun a b c h1 h2 => scoreLE_trans a b c h1 h2)
      (fun a b => scoreLE_total a b) _
      (fun x => decide (x.score = q))
      (by
        intro a b ha hb
        simp only [decide_eq_true_eq] at *
        rw [ha, hb])
  · intro raga
    rw [scoreRaga_eq]
    have hov := overlapFold_go (raga.aaroh ++ raga.avaroh)
      (sortedNotes noteStats) (0, 0)
    have hph := phraseFold_go
      (sepJoin ((noteStream.map (fun n => n.note)).map String.data))
      (allPatterns raga) (0, 0)
    have hovEq : overlapFold (raga.aaroh ++ raga.avaroh)
        (sortedNotes noteStats) =
        (2 * ((sortedNotes noteStats).countP
            (fun n => decide (n.normalizedDuration > 1/20) &&
              (raga.aaroh ++ raga.avaroh).contains n.note) : ℚ),
         5 * ((sortedNotes noteStats).countP
            (fun n => decide (n.normalizedDuration > 1/20) &&
              !((raga.aaroh ++ raga.avaroh).contains n.note)) : ℚ)) := by
      unfold overlapFold
      rw [hov]
      simp only [Prod.mk.injEq]
      constructor <;> ring
    have hphEq : phraseFold
        (sepJoin ((noteStream.map (fun n => n.note)).map String.data))
        (allPatterns raga) =
        (20 * ((allPatterns raga).countP (fun pat =>
            stringIncludes
              (sepJoin ((noteStream.map (fun n => n.note)).map String.data))
              (sepJoin (pat.map String.data))) : ℚ),
         (allPatterns raga).countP (fun pat =>
            stringIncludes
              (sepJoin ((noteStream.map (fun n => n.note)).map String.data))
              (sepJoin (pat.map String.data)))) := by
      unfold phraseFold
      rw [hph]
      simp only [Prod.mk.injEq]
      constructor
      · ring
      · omega
    have hc1 : (sortedNotes noteStats).countP
        (fun n => decide (n.normalizedDuration > 1/20) &&
          (raga.aaroh ++ raga.avaroh).contains n.note) =
        noteStats.countP (fun n => decide (n.normalizedDuration > 1/20) &&
          (raga.aaroh ++ raga.avaroh).contains n.note) :=
      hsortPerm.countP_eq _
    have hc2 : (sortedNotes noteStats).countP
        (fun n => decide (n.normalizedDuration > 1/20) &&
          !((raga.aaroh ++ raga.avaroh).contains n.note)) =
        noteStats.countP (fun n => decide (n.normalizedDuration > 1/20) &&
          !((raga.aaroh ++ raga.avaroh).contains n.note)) :=
      hsortPerm.countP_eq _
    refine ⟨rfl, rfl, ?_, ?_⟩
    · show (overlapFold (raga.aaroh ++ raga.avaroh) (sortedNotes noteStats)).1 -
          (overlapFold (raga.aaroh ++ raga.avaroh) (sortedNotes noteStats)).2 = _
      rw [hovEq, ← hc1, ← hc2]
    · show _ = _
      rw [hovEq, hphEq]

/-! ### Space-joined token matching (C5)

`streamString.includes(pattern.join(" "))` is a CHARACTER-level substring
test.  The lemmas below show that over the swara alphabet — whose tokens are
non-empty, space-free, and never infixes of one another — it coincides with
TOKEN-level contiguous occurrence. -/

/-- `sepJoin` on a cons with a non-empty tail. -/
theorem sepJoin_cons (t : List Char) (ts : List (List Char)) (h : ts ≠ []) :
    sepJoin (t :: ts) = t ++ sep :: sepJoin ts := by
  cases ts with
  | nil => exact absurd rfl h
  | cons a ts => rfl

/-- A join starting from a non-empty token is non-empty. -/
theorem sepJoin_ne_nil {t : List Char} (ht : t ≠ []) (ts : List (List Char)) :
    sepJoin (t :: ts) ≠ [] := by
  cases ts with
  | nil => exact ht
  | cons a ts => simp [sepJoin_cons t (a :: ts) (by simp)]

/-- A join of a cons extends its head token. -/
theorem sepJoin_head (t : List Char) (ts : List (List Char)) :
    ∃ z, sepJoin (t :: ts) = t ++ z := by
  cases ts with
  | nil => exact ⟨[], (List.append_nil t).symm⟩
  | cons a ts => exact ⟨sep :: sepJoin (a :: ts), rfl⟩

/-- Join distributes over append of non-empty token lists. -/
theorem sepJoin_append (a b : List (List Char)) (ha : a ≠ []) (hb : b ≠ []) :
    sepJoin (a ++ b) = sepJoin a ++ sep :: sepJoin b := by
  induction a with
  | nil => exact absurd rfl ha
  | cons t a' ih =>
    cases a' with
    | nil =>
      cases b with
      | nil => exact absurd rfl hb
      | cons b0 b' =>
        rw [List.singleton_append, sepJoin_cons t (b0 :: b') (by simp)]
        rfl
    | cons t2 a'' =>
      rw [List.cons_append, sepJoin_cons t ((t2 :: a'') ++ b) (by simp),
        ih (by simp), sepJoin_cons t (t2 :: a'') (by simp)]
      simp [List.append_assoc]

/-- Token-level infix occurrence transports to the character level. -/
theorem sepJoin_infix_intro {ps ts : List (List Char)}
    (h : ps <:+: ts) : sepJoin ps <:+: sepJoin ts := by
  obtain ⟨u, v, huv⟩ := h
  cases hps : ps with
  | nil => exact List.nil_infix
  | cons p ps' =>
    subst hps
    cases hu : u with
    | nil =>
      cases hv : v with
      | nil =>
        subst hu hv
        rw [← huv]
        simp [List.infix_rfl]
      | cons v0 v' =>
        subst hu hv
        rw [← huv, List.nil_append,
          sepJoin_append (p :: ps') (v0 :: v') (by simp) (by simp)]
        exact ⟨[], sep :: sepJoin (v0 :: v'), by simp⟩
    | cons u0 u' =>
      cases hv : v with
      | nil =>
        subst hu hv
        rw [← huv, List.append_nil,
          sepJoin_append (u0 :: u') (p :: ps') (by simp) (by simp)]
        exact ⟨sepJoin (u0 :: u') ++ [sep], [], by simp⟩
      | cons v0 v' =>
        subst hu hv
        rw [← huv, List.append_assoc,
          sepJoin_append (u0 :: u') ((p :: ps') ++ (v0 :: v')) (by simp) (by simp),
          sepJoin_append (p :: ps') (v0 :: v') (by simp) (by simp)]
        exact ⟨sepJoin (u0 :: u') ++ [sep], sep :: sepJoin (v0 :: v'), by simp⟩

/-- Two decompositions around a first separator agree when both leading
parts are separator-free. -/
theorem eq_of_sepFree_append {a b x y : List Char}
    (ha : sep ∉ a) (hb : sep ∉ b) (h : a ++ sep :: x = b ++ sep :: y) :
    a = b ∧ x = y := by
  induction a generalizing b with
  | nil =>
    cases b with
    | nil => simpa using h
    | cons c b' =>
      rw [List.nil_append, List.cons_append, List.cons.injEq] at h
      have hmem : sep ∈ c :: b' := by
        rw [← h.1]
        exact List.mem_cons_self sep b'
      exact absurd hmem hb
  | cons c a' ih =>
    cases b with
    | nil =>
      rw [List.nil_append, List.cons_append, List.cons.injEq] at h
      have hmem : sep ∈ c :: a' := by
        rw [h.1]
        exact List.mem_cons_self sep a'
      exact absurd hmem ha
    | cons d b' =>
      rw [List.cons_append, List.cons_append, List.cons.injEq] at h
      obtain ⟨rfl, h2⟩ := h
      obtain ⟨h3, h4⟩ := ih (fun hmem => ha (List.mem_cons_of_mem c hmem))
        (fun hmem => hb (List.mem_cons_of_mem c hmem)) h2
      exact ⟨by rw [h3], h4⟩

/-- A separator-free word whose extension equals a `t ++ sep :: _`
decomposition with `t` separator-free is a prefix of `t`. -/
theorem prefix_of_sepFree_append {p t w z : List Char}
    (hp : sep ∉ p) (h : p ++ w = t ++ sep :: z) : p <+: t := by
  rcases List.append_eq_append_iff.mp h with ⟨a', ha1, _⟩ | ⟨c', hc1, hc2⟩
  · exact ⟨a', ha1.symm⟩
  · cases c' with
    | nil =>
      rw [hc1, List.append_nil]
    | cons e c'' =>
      rw [List.cons_append, List.cons.injEq] at hc2
      have hmem : sep ∈ p := by
        rw [hc1, ← hc2.1]
        exact List.mem_append_right t (List.mem_cons_self sep c'')
      exact absurd hmem hp

/-- Over an alphabet `A` of non-empty, separator-free, mutually
non-infix tokens, a character-level PREFIX between joins forces a
token-level prefix. -/
theorem sepJoin_prefix_cancel
    (A : List Char → Prop)
    (hA1 : ∀ t, A t → t ≠ []) (hA2 : ∀ t, A t → sep ∉ t)
    (hA3 : ∀ p t, A p → A t → p <:+: t → p = t) :
    ∀ (ps ts : List (List Char)), (∀ p ∈ ps, A p) → (∀ t ∈ ts, A t) →
      sepJoin ps <+: sepJoin ts → ps <+: ts := by
  intro ps
  induction ps with
  | nil => intro ts _ _ _; exact List.nil_prefix
  | cons p ps' ih =>
    intro ts hps hts hpre
    have hpA : A p := hps p (List.mem_cons_self p ps')
    have hpne : p ≠ [] := hA1 p hpA
    have hpsep : sep ∉ p := hA2 p hpA
    cases ts with
    | nil =>
      exact absurd (List.prefix_nil.mp hpre) (sepJoin_ne_nil hpne ps')
    | cons t ts' =>
      have htA : A t := hts t (List.mem_cons_self t ts')
      have htsep : sep ∉ t := hA2 t htA
      cases ps' with
      | nil =>
        cases ts' with
        | nil =>
          have hp : p <+: t := hpre
          have heq : p = t := hA3 p t hpA htA hp.isInfix
          rw [heq]
        | cons t2 ts'' =>
          rw [sepJoin_cons t (t2 :: ts'') (by simp)] at hpre
          obtain ⟨w, hw⟩ := hpre
          have hp : p <+: t := prefix_of_sepFree_append hpsep hw
          have heq : p = t := hA3 p t hpA htA hp.isInfix
          rw [heq]
          exact ⟨t2 :: ts'', rfl⟩
      | cons p2 ps'' =>
        rw [sepJoin_cons p (p2 :: ps'') (by simp)] at hpre
        cases ts' with
        | nil =>
          obtain ⟨w, hw⟩ := hpre
          have hw' : (p ++ sep :: sepJoin (p2 :: ps'')) ++ w = t := hw
          have hmem : sep ∈ t := by
            rw [← hw']
            exact List.mem_append_left w
              (List.mem_append_right p
                (List.mem_cons_self sep (sepJoin (p2 :: ps''))))
          exact absurd hmem htsep
        | cons t2 ts'' =>
          rw [sepJoin_cons t (t2 :: ts'') (by simp)] at hpre
          obtain ⟨w, hw⟩ := hpre
          rw [List.append_assoc, List.cons_append] at hw
          obtain ⟨hpt, hJ⟩ := eq_of_sepFree_append hpsep htsep hw
          have hpre' : sepJoin (p2 :: ps'') <+: sepJoin (t2 :: ts'') := ⟨w, hJ⟩
          have hps' : (p2 :: ps'') <+: (t2 :: ts'') :=
            ih (t2 :: ts'') (fun q hq => hps q (List.mem_cons_of_mem p hq))
              (fun q hq => hts q (List.mem_cons_of_mem t hq)) hpre'
          rw [List.cons_prefix_cons]
          exact ⟨hpt, hps'⟩

/-- Over the same kind of alphabet, a character-level INFIX between joins
forces a token-level infix (the converse of `sepJoin_infix_intro`). -/
theorem sepJoin_infix_elim
    (A : List Char → Prop)
    (hA1 : ∀ t, A t → t ≠ []) (hA2 : ∀ t, A t → sep ∉ t)
    (hA3 : ∀ p t, A p → A t → p <:+: t → p = t) :
    ∀ (ts ps : List (List Char)), (∀ p ∈ ps, A p) → (∀ t ∈ ts, A t) →
      sepJoin ps <:+: sepJoin ts → ps <:+: ts := by
  intro ts
  induction ts with
  | nil =>
    intro ps hps _ hinf
    cases ps with
    | nil => exact List.infix_rfl
    | cons p ps' =>
      have h0 : sepJoin (p :: ps') = [] := List.infix_nil.mp hinf
      exact absurd h0
        (sepJoin_ne_nil (hA1 p (hps p (List.mem_cons_self p ps'))) ps')
  | cons t ts' ih =>
    intro ps hps hts hinf
    cases ps with
    | nil => exact List.nil_infix
    | cons p ps' =>
      have hpA : A p := hps p (List.mem_cons_self p ps')
      have hpne : p ≠ [] := hA1 p hpA
      have hpsep : sep ∉ p := hA2 p hpA
      have htA : A t := hts t (List.mem_cons_self t ts')
      have htsep : sep ∉ t := hA2 t htA
      obtain ⟨u, v, huv⟩ := hinf
      cases u with
      | nil =>
        have hpre : sepJoin (p :: ps') <+: sepJoin (t :: ts') := by
          refine ⟨v, ?_⟩
          rw [← huv, List.nil_append]
        exact (sepJoin_prefix_cancel A hA1 hA2 hA3 (p :: ps')
          (t :: ts') hps hts hpre).isInfix
      | cons u0 u1 =>
        cases ts' with
        | nil =>
          exfalso
          cases ps' with
          | cons p2 ps'' =>
            apply htsep
            have huv' : ((u0 :: u1) ++ sepJoin (p :: p2 :: ps'')) ++ v = t := huv
            rw [← huv', sepJoin_cons p (p2 :: ps'') (by simp)]
            exact List.mem_append_left v
              (List.mem_append_right (u0 :: u1)
                (List.mem_append_right p
                  (List.mem_cons_self sep (sepJoin (p2 :: ps'')))))
          | nil =>
            have hinf2 : p <:+: t := ⟨u0 :: u1, v, huv⟩
            have heq : p = t := hA3 p t hpA htA hinf2
            have huv'' : ((u0 :: u1) ++ p) ++ v = t := huv
            have hlen := congrArg List.length huv''
            rw [heq] at hlen
            simp only [List.length_append, List.length_cons] at hlen
            omega
        | cons t2 ts'' =>
          have huv' : (u0 :: u1) ++ (sepJoin (p :: ps') ++ v) =
              t ++ sep :: sepJoin (t2 :: ts'') := by
            rw [← sepJoin_cons t (t2 :: ts'') (by simp), ← huv,
              List.append_assoc]
          rcases List.append_eq_append_iff.mp huv' with
            ⟨w, hw1, hw2⟩ | ⟨w, hw1, hw2⟩
          · -- the occurrence starts inside `t`: impossible
            have hwsep : sep ∉ w := fun hmem =>
              htsep (hw1 ▸ List.mem_append_right (u0 :: u1) hmem)
            exfalso
            cases ps' with
            | nil =>
              have hw2' : p ++ v = w ++ sep :: sepJoin (t2 :: ts'') := hw2
              have hp : p <+: w := prefix_of_sepFree_append hpsep hw2'
              have hwinf : w <:+: t := ⟨u0 :: u1, [], by
                rw [List.append_nil, ← hw1]⟩
              have heq : p = t := hA3 p t hpA htA (hp.isInfix.trans hwinf)
              have hle := hp.length_le
              have hlen := congrArg List.length hw1
              simp only [List.length_append, List.length_cons] at hlen
              rw [heq] at hle
              omega
            | cons p2 ps'' =>
              rw [sepJoin_cons p (p2 :: ps'') (by simp),
                List.append_assoc, List.cons_append] at hw2
              obtain ⟨hpw, _⟩ := eq_of_sepFree_append hpsep hwsep hw2
              have hwinf : w <:+: t := ⟨u0 :: u1, [], by
                rw [List.append_nil, ← hw1]⟩
              have heq : p = t := hA3 p t hpA htA (hpw ▸ hwinf)
              have hlen := congrArg List.length hw1
              rw [← hpw, heq] at hlen
              simp only [List.length_append, List.length_cons] at hlen
              omega
          · -- the occurrence starts after `t ++ sep`: recurse into the tail
            cases w with
            | nil =>
              exfalso
              obtain ⟨z, hz⟩ := sepJoin_head p ps'
              rw [List.nil_append] at hw2
              rw [hz, List.append_assoc] at hw2
              cases hp0 : p with
              | nil => exact hpne hp0
              | cons c p' =>
                rw [hp0, List.cons_append, List.cons.injEq] at hw2
                apply hpsep
                rw [hp0, ← hw2.1]
                exact List.mem_cons_self sep p'
            | cons c w' =>
              rw [List.cons_append, List.cons.injEq] at hw2
              obtain ⟨_, hJ'⟩ := hw2
              have hinf2 : sepJoin (p :: ps') <:+: sepJoin (t2 :: ts'') :=
                ⟨w', v, by rw [List.append_assoc, ← hJ']⟩
              exact List.infix_cons
                (ih (p :: ps') hps
                  (fun q hq => hts q (List.mem_cons_of_mem t hq)) hinf2)

/-- Every swara token is a non-empty character list. -/
theorem swara_tokens_ne_nil :
    ∀ t ∈ SWARA_MAPPING.map String.data, t ≠ [] := by decide

/-- No swara token contains the separator space. -/
theorem swara_tokens_sep_free :
    ∀ t ∈ SWARA_MAPPING.map String.data, sep ∉ t := by decide

/-- No swara token occurs as a substring of a different swara token. -/
theorem swara_tokens_no_overlap :
    ∀ p ∈ SWARA_MAPPING.map String.data,
      ∀ t ∈ SWARA_MAPPING.map String.data, p <:+: t → p = t := by decide

/-- Infix occurrence of token character lists is the same as infix
occurrence of the token strings. -/
theorem map_data_infix_iff (ps ts : List String) :
    ps.map String.data <:+: ts.map String.data ↔ ps <:+: ts := by
  constructor
  · intro h
    obtain ⟨l, hl, heq⟩ := List.isInfix_map_iff.mp h
    have hinj : Function.Injective String.data := fun a b hab => by
      cases a; cases b; exact congrArg String.mk hab
    have : ps = l := (List.map_injective_iff.mpr hinj) heq
    rw [this]
    exact hl
  · exact fun h => List.IsInfix.map String.data h

/-- C5 core: over swara labels, the character-level substring test used by
the engine holds exactly when the pattern occurs as a contiguous run of
tokens in the note stream, and `phraseMatches` counts exactly those
patterns (each worth +20 score). -/
theorem phrase_matching_spec (noteStats : List NoteStat)
    (noteStream : List DetectedNote) (raga : Raga)
    (hstream : ∀ n ∈ noteStream, n.note ∈ SWARA_MAPPING)
    (hpat : ∀ pat ∈ allPatterns raga, ∀ tok ∈ pat, tok ∈ SWARA_MAPPING) :
    (∀ pat ∈ allPatterns raga,
      (stringIncludes
          (sepJoin ((noteStream.map (fun n => n.note)).map String.data))
          (sepJoin (pat.map String.data)) = true ↔
        pat <:+: noteStream.map (fun n => n.note))) ∧
    (scoreRaga noteStats noteStream raga).matchDetails.phraseMatches =
      (allPatterns raga).countP
        (fun pat => decide (pat <:+: noteStream.map (fun n => n.note))) ∧
    (phraseFold (sepJoin ((noteStream.map (fun n => n.note)).map String.data))
        (allPatterns raga)).1 =
      20 * ((allPatterns raga).countP
        (fun pat => decide (pat <:+: noteStream.map (fun n => n.note))) : ℚ) := by
  have hA1 : ∀ t, t ∈ SWARA_MAPPING.map String.data → t ≠ [] :=
    swara_tokens_ne_nil
  have hA2 : ∀ t, t ∈ SWARA_MAPPING.map String.data → sep ∉ t :=
    swara_tokens_sep_free
  have hA3 : ∀ p t, p ∈ SWARA_MAPPING.map String.data →
      t ∈ SWARA_MAPPING.map String.data → p <:+: t → p = t :=
    fun p t hp ht => swara_tokens_no_overlap p hp t ht
  have hstream' : ∀ c ∈ (noteStream.map (fun n => n.note)).map String.data,
      c ∈ SWARA_MAPPING.map String.data := by
    intro c hc
    obtain ⟨lbl, hlbl, rfl⟩ := List.mem_map.mp hc
    obtain ⟨n, hn, rfl⟩ := List.mem_map.mp hlbl
    exact List.mem_map_of_mem String.data (hstream n hn)
  have hiff : ∀ pat ∈ allPatterns raga,
      (stringIncludes
          (sepJoin ((noteStream.map (fun n => n.note)).map String.data))
          (sepJoin (pat.map String.data)) = true ↔
        pat <:+: noteStream.map (fun n => n.note)) := by
    intro pat hp
    have hpat' : ∀ c ∈ pat.map String.data,
        c ∈ SWARA_MAPPING.map String.data := by
      intro c hc
      obtain ⟨tok, htok, rfl⟩ := List.mem_map.mp hc
      exact List.mem_map_of_mem String.data (hpat pat hp tok htok)
    unfold stringIncludes
    rw [decide_eq_true_eq]
    constructor
    · intro h
      have h2 := sepJoin_infix_elim
        (fun t => t ∈ SWARA_MAPPING.map String.data) hA1 hA2 hA3
        ((noteStream.map (fun n => n.note)).map String.data)
        (pat.map String.data) hpat' hstream' h
      exact (map_data_infix_iff pat (noteStream.map (fun n => n.note))).mp h2
    · intro h
      exact sepJoin_infix_intro (List.IsInfix.map String.data h)
  have hcount : (allPatterns raga).countP
      (fun pat => stringIncludes
        (sepJoin ((noteStream.map (fun n => n.note)).map String.data))
        (sepJoin (pat.map String.data))) =
      (allPatterns raga).countP
        (fun pat => decide (pat <:+: noteStream.map (fun n => n.note))) := by
    apply List.countP_congr
    intro pat hp
    constructor
    · intro h
      exact decide_eq_true ((hiff pat hp).mp h)
    · intro h
      exact (hiff pat hp).mpr (of_decide_eq_true h)
  have hph := phraseFold_go
    (sepJoin ((noteStream.map (fun n => n.note)).map String.data))
    (allPatterns raga) (0, 0)
  refine ⟨hiff, ?_, ?_⟩
  · show (phraseFold
        (sepJoin ((noteStream.map (fun n => n.note)).map String.data))
        (allPatterns raga)).2 = _
    unfold phraseFold
    rw [hph]
    simp only [Nat.zero_add]
    exact hcount
  · unfold phraseFold
    rw [hph]
    simp only
    rw [hcount, zero_add]

/-- Witness for `phrase_matching_spec`, realizing the spec's §8 vector: the
stream `[Sa, Re, Ga, Ma]` matches the pakad `[Sa, Re, Ga, Ma]` exactly once
and does not match the pakad `[Sa, Re, Pa]`. -/
theorem phrase_matching_spec_witness :
    (∀ n ∈ testStream, n.note ∈ SWARA_MAPPING) ∧
    (∀ pat ∈ allPatterns (testRaga ["Sa", "Re", "Ga", "Ma"]),
      ∀ tok ∈ pat, tok ∈ SWARA_MAPPING) ∧
    ((∀ pat ∈ allPatterns (testRaga ["Sa", "Re", "Ga", "Ma"]),
      (stringIncludes
          (sepJoin ((testStream.map (fun n => n.note)).map String.data))
          (sepJoin (pat.map String.data)) = true ↔
        pat <:+: testStream.map (fun n => n.note))) ∧
     (scoreRaga [] testStream
        (testRaga ["Sa", "Re", "Ga", "Ma"])).matchDetails.phraseMatches =
      (allPatterns (testRaga ["Sa", "Re", "Ga", "Ma"])).countP
        (fun pat => decide (pat <:+: testStream.map (fun n => n.note))) ∧
     (phraseFold (sepJoin ((testStream.map (fun n => n.note)).map String.data))
        (allPatterns (testRaga ["Sa", "Re", "Ga", "Ma"]))).1 =
      20 * ((allPatterns (testRaga ["Sa", "Re", "Ga", "Ma"])).countP
        (fun pat => decide (pat <:+: testStream.map (fun n => n.note))) : ℚ)) ∧
    (scoreRaga [] testStream
      (testRaga ["Sa", "Re", "Ga", "Ma"])).matchDetails.phraseMatches = 1 ∧
    (scoreRaga [] testStream
      (testRaga ["Sa", "Re", "Pa"])).matchDetails.phraseMatches = 0 := by
  have h1 : ∀ n ∈ testStream, n.note ∈ SWARA_MAPPING := by decide
  have h2 : ∀ pat ∈ allPatterns (testRaga ["Sa", "Re", "Ga", "Ma"]),
      ∀ tok ∈ pat, tok ∈ SWARA_MAPPING := by decide
  exact ⟨h1, h2,
    phrase_matching_spec [] testStream (testRaga ["Sa", "Re", "Ga", "Ma"]) h1 h2,
    by decide, by decide⟩

end RagaEngine

end Raagbodh
